import Mathlib

/-!
# Verification of the chatgpt-knowledge-manager core

A shallow embedding, in Lean 4, of the core algorithms of the
`chatgpt-knowledge-manager` repository, together with theorems settling the
specification claims about them.

Embedded components (each definition is translated from the Python source):

* `chunk_text` — the overlapping text chunker
  (`app/backend/openai_service.py`, `OpenAIService.chunk_text`);
* `find_related_topics` — the cosine-similarity ranker
  (`app/backend/openai_service.py`, `OpenAIService.find_related_topics`);
* `generateAndStoreEmbeddings` — the re-embed stage of the analysis pipeline
  (`app/backend/analysis_service.py`, `_generate_and_store_embeddings`);
* `parseSingleConversation` — the export tree parser
  (`app/utils/optimized_import.py` / `app/utils/chat_import.py`);
* `streamJsonArray` / `chunkedImport` — the streaming bulk importer
  (`app/utils/optimized_import.py`).

Python strings are modeled as `List Char`, Python `int`/`float` indices as
`ℤ`/`ℕ`, embedding-vector components as `ℝ`, and timestamps as `ℚ`
(`datetime.fromtimestamp` is modeled as the identity on the numeric Unix
time, which is order-isomorphic to the real conversion).  Loops that can
run forever on some inputs are modeled with an explicit fuel argument and
return `none` when the fuel is exhausted, so a return value of `none` for
every fuel is the model of non-termination.  External collaborators
(document store, embedding model) are passed in as explicit function
arguments.
-/

/-! ## Python primitives: slicing, `str.rfind`, `str.strip` -/

/-- Python `str.strip` whitespace test, restricted to the ASCII whitespace
characters (the unicode-only whitespace code points cannot occur in the
inputs the claims quantify over). -/
def pyIsSpace (c : Char) : Bool :=
  c == ' ' || c == '\t' || c == '\n' || c == '\r' || c == '\x0b' || c == '\x0c'

/-- Python `str.strip()` on a list of characters. -/
def pyStrip (t : List Char) : List Char :=
  ((t.dropWhile pyIsSpace).reverse.dropWhile pyIsSpace).reverse

/-- Clamping of a (possibly negative) Python slice index into `[0, n]`,
as performed by `str.__getitem__` with slice arguments and by `str.rfind`. -/
def pyClamp (n : ℕ) (i : ℤ) : ℕ :=
  min n (if i < 0 then i + n else i).toNat

/-- Python slice `t[s:e]`. -/
def pySlice (t : List Char) (s e : ℤ) : List Char :=
  (t.drop (pyClamp t.length s)).take (pyClamp t.length e - pyClamp t.length s)

/-- One candidate index considered by the `rfind` scan: the accumulator is
replaced by `max acc i` when the two-character pattern matches at `i`
within the clamped `[cs, ce)` range. -/
def pyRfind2Step (t : List Char) (p₁ p₂ : Char) (cs ce : ℕ) (acc : ℤ)
    (i : ℕ) : ℤ :=
  if cs ≤ i ∧ i + 2 ≤ ce ∧ t[i]? = some p₁ ∧ t[i + 1]? = some p₂ then
    max acc (i : ℤ)
  else acc

/-- Python `t.rfind(p₁p₂, s, e)` for a two-character pattern: the largest
index `i` with `clamp s ≤ i`, `i + 2 ≤ clamp e` and the pattern matching at
`i`, or `-1` when there is none. -/
def pyRfind2 (t : List Char) (p₁ p₂ : Char) (s e : ℤ) : ℤ :=
  (List.range t.length).foldl
    (pyRfind2Step t p₁ p₂ (pyClamp t.length s) (pyClamp t.length e)) (-1)

lemma pyClamp_le_length (n : ℕ) (i : ℤ) : (pyClamp n i : ℤ) ≤ n := by
  unfold pyClamp
  have : min n (if i < 0 then i + n else i).toNat ≤ n := min_le_left _ _
  exact_mod_cast this

lemma pyRfind2_foldl_le (t : List Char) (p₁ p₂ : Char) (cs ce : ℕ) :
    ∀ (l : List ℕ) (acc : ℤ), -1 ≤ acc → (acc = -1 ∨ acc + 2 ≤ (ce : ℤ)) →
      -1 ≤ l.foldl (pyRfind2Step t p₁ p₂ cs ce) acc ∧
        (l.foldl (pyRfind2Step t p₁ p₂ cs ce) acc = -1 ∨
          l.foldl (pyRfind2Step t p₁ p₂ cs ce) acc + 2 ≤ (ce : ℤ)) := by
  intro l
  induction l with
  | nil => intro acc h1 h2; exact ⟨h1, h2⟩
  | cons a l ih =>
      intro acc h1 h2
      rw [List.foldl_cons]
      by_cases hc :
          cs ≤ a ∧ a + 2 ≤ ce ∧ t[a]? = some p₁ ∧ t[a + 1]? = some p₂
      · rw [pyRfind2Step, if_pos hc]
        have ha : (a : ℤ) + 2 ≤ (ce : ℤ) := by exact_mod_cast hc.2.1
        exact ih (max acc a) (by omega) (by omega)
      · rw [pyRfind2Step, if_neg hc]
        exact ih acc h1 h2

lemma pyRfind2_le (t : List Char) (p₁ p₂ : Char) (s e : ℤ) :
    -1 ≤ pyRfind2 t p₁ p₂ s e ∧
      (pyRfind2 t p₁ p₂ s e = -1 ∨
        pyRfind2 t p₁ p₂ s e + 2 ≤ (pyClamp t.length e : ℤ)) := by
  unfold pyRfind2
  exact pyRfind2_foldl_le t p₁ p₂ _ _ _ (-1) (by omega) (Or.inl rfl)

/-! ## 4.1 Chunker: `OpenAIService.chunk_text` -/

/-- One computation of the window end in the body of the `chunk_text` loop:
`end = min(start + chunk_size, len(text))`, then, when the window right edge
is not the text end, the latest sentence-ending punctuation (`". "`, `"? "`,
`"! "`) found by `rfind` inside the window replaces it. -/
def chunkEnd (t : List Char) (cs : ℕ) (start : ℤ) : ℤ :=
  let end0 : ℤ := min (start + cs) t.length
  if end0 < (t.length : ℤ) then
    let latest := max (pyRfind2 t '.' ' ' start end0)
      (max (pyRfind2 t '?' ' ' start end0) (pyRfind2 t '!' ' ' start end0))
    if latest = -1 then end0 else latest + 2
  else end0

/-- The `while start < len(text)` loop of `chunk_text`, with fuel.  Each
iteration appends `text[start:end]` and sets `start = end - overlap`.
`none` means the fuel ran out, i.e. the loop was still running. -/
def chunkTextGo (t : List Char) (cs ov : ℕ) :
    ℕ → ℤ → List (List Char) → Option (List (List Char))
  | 0, _, _ => none
  | fuel + 1, start, chunks =>
      if start < (t.length : ℤ) then
        let e := chunkEnd t cs start
        chunkTextGo t cs ov fuel (e - ov) (chunks ++ [pySlice t start e])
      else some chunks

/-- `OpenAIService.chunk_text(text, chunk_size, overlap)`.  Returns the
whole text as a single chunk when `len(text) <= chunk_size`, otherwise
enters the chunking loop (with fuel). -/
def chunk_text (t : List Char) (cs ov : ℕ) (fuel : ℕ) :
    Option (List (List Char)) :=
  if t.length ≤ cs then some [t] else chunkTextGo t cs ov fuel 0 []

lemma chunkEnd_le_length (t : List Char) (cs : ℕ) (start : ℤ) :
    chunkEnd t cs start ≤ (t.length : ℤ) := by
  unfold chunkEnd
  have h1 := pyRfind2_le t '.' ' ' start (min (start + cs) t.length)
  have h2 := pyRfind2_le t '?' ' ' start (min (start + cs) t.length)
  have h3 := pyRfind2_le t '!' ' ' start (min (start + cs) t.length)
  have hc := pyClamp_le_length t.length (min (start + cs) t.length)
  dsimp only
  split_ifs <;> omega

/-- Once inside the loop the guard `start < len(text)` stays true forever
when `overlap ≥ 1`: the next start is `end - overlap ≤ len - overlap < len`. -/
lemma chunkTextGo_eq_none (t : List Char) (cs ov : ℕ) (hov : 1 ≤ ov) :
    ∀ fuel (start : ℤ) chunks, start < (t.length : ℤ) →
      chunkTextGo t cs ov fuel start chunks = none := by
  intro fuel
  induction fuel with
  | zero => intro start chunks _; rfl
  | succ n ih =>
      intro start chunks h
      rw [chunkTextGo, if_pos h]
      apply ih
      have := chunkEnd_le_length t cs start
      omega

/-- C1: the chunking loop of `chunk_text` never terminates for any text
longer than `chunk_size` and any `overlap ≥ 1` (in particular for every
positive `overlap < chunk_size`): the result is `none` at every fuel. -/
theorem chunk_text_loop_diverges (t : List Char) (cs ov : ℕ)
    (hcs : cs < t.length) (hov : 1 ≤ ov) (hlt : ov < cs) :
    ∀ fuel, chunk_text t cs ov fuel = none := by
  intro fuel
  rw [chunk_text, if_neg (by omega)]
  have : 0 < t.length := by omega
  exact chunkTextGo_eq_none t cs ov hov fuel 0 [] (by exact_mod_cast this)

/-- Witness for C1 at a concrete input: six characters, `chunk_size = 4`,
`overlap = 1`, any fuel (here `10`). -/
theorem chunk_text_loop_diverges_witness :
    (4 < (['a', 'b', 'c', 'd', 'e', 'f'] : List Char).length ∧ 1 ≤ 1 ∧ 1 < 4) ∧
      chunk_text ['a', 'b', 'c', 'd', 'e', 'f'] 4 1 10 = none :=
  ⟨by decide,
    chunk_text_loop_diverges ['a', 'b', 'c', 'd', 'e', 'f'] 4 1 (by decide)
      (by decide) (by decide) 10⟩

/-- C9: for `len(text) ≤ chunk_size`, `chunk_text` returns exactly `[text]`,
and re-chunking any returned chunk again returns that chunk alone. -/
theorem chunk_text_short_id (t : List Char) (cs ov fuel : ℕ)
    (h : t.length ≤ cs) :
    chunk_text t cs ov fuel = some [t] ∧
      ∀ c ∈ [t], ∀ fuel2, chunk_text c cs ov fuel2 = some [c] := by
  constructor
  · rw [chunk_text, if_pos h]
  · intro c hc fuel2
    rw [List.mem_singleton] at hc
    subst hc
    rw [chunk_text, if_pos h]

/-- Witness for C9 at the concrete input `"hi"`, `chunk_size = 5`. -/
theorem chunk_text_short_id_witness :
    ((['h', 'i'] : List Char).length ≤ 5) ∧
      (chunk_text ['h', 'i'] 5 2 3 = some [['h', 'i']] ∧
        ∀ c ∈ [(['h', 'i'] : List Char)], ∀ fuel2,
          chunk_text c 5 2 fuel2 = some [c]) :=
  ⟨by decide, chunk_text_short_id ['h', 'i'] 5 2 3 (by decide)⟩

/-! ## 4.3 Similarity Ranker: `OpenAIService.find_related_topics`

Vector components (numpy floats) are modeled as real numbers; `np.dot` of
two 1-D arrays is the sum of elementwise products and `np.linalg.norm` is
the square root of the sum of squares. -/

/-- `np.dot` on 1-D vectors. -/
def dotp (xs ys : List ℝ) : ℝ := (List.zipWith (fun a b => a * b) xs ys).sum

/-- `np.linalg.norm` (L2 norm). -/
noncomputable def l2norm (xs : List ℝ) : ℝ := Real.sqrt (dotp xs xs)

/-- Cosine similarity exactly as computed in `find_related_topics`:
the dot product divided by the product of the two norms.  The divisor is
`l2norm q * l2norm e`; the code applies this to every candidate with no
zero-norm guard. -/
noncomputable def cosineSim (q e : List ℝ) : ℝ :=
  dotp q e / (l2norm q * l2norm e)

/-- One ranked result, `{"conversation_id", "similarity_score",
"text_preview"}`. -/
structure RelatedTopic where
  conversation_id : String
  similarity_score : ℝ
  text_preview : String

/-- `text[:200] + "..." if len(text) > 200 else text`. -/
def previewText (t : String) : String :=
  if 200 < t.length then t.take 200 ++ "..." else t

/-- The result-building `for` loop of `find_related_topics`: scan the
(sorted, truncated) candidate pool keeping the first occurrence of each
`conv_id` while fewer than `top_n` results have been taken. -/
def dedupTake (top_n : ℕ) :
    List (String × ℝ × String) → List String → List RelatedTopic →
      List RelatedTopic
  | [], _, res => res
  | item :: rest, seen, res =>
      if item.1 ∉ seen ∧ res.length < top_n then
        dedupTake top_n rest (item.1 :: seen)
          (res ++ [⟨item.1, item.2.1, previewText item.2.2⟩])
      else dedupTake top_n rest seen res

/-- `OpenAIService.find_related_topics(query_embedding, all_embeddings,
top_n)`: score every candidate with `cosineSim`, sort descending by score
(`list.sort` is stable; `mergeSort` with `b.score ≤ a.score` models it),
then scan the first `top_n*2` sorted entries deduplicating by id. -/
noncomputable def find_related_topics (query : List ℝ)
    (all_embeddings : List (String × List ℝ × String)) (top_n : ℕ) :
    List RelatedTopic :=
  let similarities :=
    all_embeddings.map (fun c => (c.1, cosineSim query c.2.1, c.2.2))
  let sorted := similarities.mergeSort (fun a b => decide (b.2.1 ≤ a.2.1))
  dedupTake top_n (sorted.take (top_n * 2)) [] []

lemma dedupTake_props (n : ℕ) :
    ∀ (pool : List (String × ℝ × String)) (seen : List String)
      (res : List RelatedTopic),
      (res.map RelatedTopic.conversation_id).Nodup →
      (∀ i ∈ res.map RelatedTopic.conversation_id, i ∈ seen) →
      res.length ≤ n →
      pool.Pairwise (fun a b => b.2.1 ≤ a.2.1) →
      res.Pairwise (fun a b => b.similarity_score ≤ a.similarity_score) →
      (∀ a ∈ res, ∀ b ∈ pool, b.2.1 ≤ a.similarity_score) →
      ((dedupTake n pool seen res).map RelatedTopic.conversation_id).Nodup ∧
        (dedupTake n pool seen res).length ≤ n ∧
        (dedupTake n pool seen res).Pairwise
          (fun a b => b.similarity_score ≤ a.similarity_score) := by
  intro pool
  induction pool with
  | nil =>
      intro seen res h1 h2 h3 _ h5 _
      exact ⟨h1, h3, h5⟩
  | cons item rest ih =>
      intro seen res h1 h2 h3 h4 h5 h6
      rw [List.pairwise_cons] at h4
      by_cases hg : item.1 ∉ seen ∧ res.length < n
      · rw [dedupTake, if_pos hg]
        apply ih
        · rw [List.map_append, List.nodup_append]
          refine ⟨h1, by simp, ?_⟩
          intro x hx hy
          simp only [List.map_cons, List.map_nil, List.mem_singleton] at hy
          exact hg.1 (hy ▸ h2 x hx)
        · intro i hi
          rw [List.map_append, List.mem_append] at hi
          rcases hi with hi | hi
          · exact List.mem_cons_of_mem _ (h2 i hi)
          · simp only [List.map_cons, List.map_nil, List.mem_singleton] at hi
            exact hi ▸ List.mem_cons_self _ _
        · rw [List.length_append]
          simpa using hg.2
        · exact h4.2
        · rw [List.pairwise_append]
          refine ⟨h5, by simp, ?_⟩
          intro a ha b hb
          simp only [List.mem_singleton] at hb
          subst hb
          exact h6 a ha item (List.mem_cons_self _ _)
        · intro a ha b hb
          rw [List.mem_append] at ha
          rcases ha with ha | ha
          · exact h6 a ha b (List.mem_cons_of_mem _ hb)
          · simp only [List.mem_singleton] at ha
            subst ha
            exact h4.1 b hb
      · rw [dedupTake, if_neg hg]
        apply ih seen res h1 h2 h3 h4.2 h5
        intro a ha b hb
        exact h6 a ha b (List.mem_cons_of_mem _ hb)

/-- C5: for every query, candidate set and `top_n` (the claim restricts to
all-nonzero-norm inputs, carried here as hypotheses), the ranker output has
pairwise-distinct `conversation_id`s, at most `top_n` entries, and
non-increasing similarity scores. -/
theorem find_related_topics_ranked (query : List ℝ)
    (cands : List (String × List ℝ × String)) (top_n : ℕ)
    (hq : l2norm query ≠ 0) (hc : ∀ c ∈ cands, l2norm c.2.1 ≠ 0) :
    ((find_related_topics query cands top_n).map
        RelatedTopic.conversation_id).Nodup ∧
      (find_related_topics query cands top_n).length ≤ top_n ∧
      (find_related_topics query cands top_n).Pairwise
        (fun a b => b.similarity_score ≤ a.similarity_score) := by
  unfold find_related_topics
  apply dedupTake_props top_n _ [] [] (by simp) (by simp) (by simp) ?_
    (by simp) (by simp)
  apply List.Pairwise.sublist (List.take_sublist _ _)
  have hsorted := @List.sorted_mergeSort (String × ℝ × String)
    (fun a b => decide (b.2.1 ≤ a.2.1))
    (fun a b c hab hbc => by
      simp only [decide_eq_true_eq] at *
      exact le_trans hbc hab)
    (fun a b => by
      simp only [Bool.or_eq_true, decide_eq_true_eq]
      exact le_total b.2.1 a.2.1)
    (cands.map (fun c => (c.1, cosineSim query c.2.1, c.2.2)))
  simpa using hsorted

/-- Witness for C5 at a concrete input: one candidate of norm 1 and a
norm-1 query. -/
theorem find_related_topics_ranked_witness :
    (l2norm [(1 : ℝ)] ≠ 0 ∧
        ∀ c ∈ [("a", [(1 : ℝ)], "t")], l2norm c.2.1 ≠ 0) ∧
      (((find_related_topics [(1 : ℝ)] [("a", [(1 : ℝ)], "t")] 5).map
            RelatedTopic.conversation_id).Nodup ∧
        (find_related_topics [(1 : ℝ)] [("a", [(1 : ℝ)], "t")] 5).length ≤ 5 ∧
        (find_related_topics [(1 : ℝ)] [("a", [(1 : ℝ)], "t")] 5).Pairwise
          (fun a b => b.similarity_score ≤ a.similarity_score)) := by
  have hnorm : l2norm [(1 : ℝ)] ≠ 0 := by
    rw [l2norm]
    simp [dotp]
  refine ⟨⟨hnorm, ?_⟩, ?_⟩
  · intro c hc
    rw [List.mem_singleton] at hc
    subst hc
    exact hnorm
  · exact find_related_topics_ranked [(1 : ℝ)] [("a", [(1 : ℝ)], "t")] 5
      hnorm (by intro c hc; rw [List.mem_singleton] at hc; subst hc; exact hnorm)

/-- C2 (refuting theorem): the ranker has no zero-norm guard.  On the
concrete input with query `[1]` and one candidate `("c1", [0], "t")`, the
cosine-similarity divisor `l2norm query * l2norm candidate` is `0`, yet the
candidate is scored and returned rather than excluded: the claim that a
division with zero divisor is never performed, and that zero-norm
candidates are excluded, is false of the code. -/
theorem find_related_topics_zero_norm_scored :
    l2norm [(1 : ℝ)] * l2norm [(0 : ℝ)] = 0 ∧
      find_related_topics [(1 : ℝ)] [("c1", [(0 : ℝ)], "t")] 5 =
        [⟨"c1", cosineSim [(1 : ℝ)] [(0 : ℝ)], "t"⟩] := by
  constructor
  · have : l2norm [(0 : ℝ)] = 0 := by
      rw [l2norm]
      simp [dotp]
    rw [this, mul_zero]
  · unfold find_related_topics
    simp only [List.map_cons, List.map_nil, List.mergeSort_singleton]
    norm_num [dedupTake]
    decide

/-! ## Data model: `Message`, `Conversation`, `ConversationEmbedding`

Timestamps are modeled as rationals (Unix time); `datetime.fromtimestamp`
is modeled as the identity, which preserves order.  Fields of the pydantic
models not touched by any claim (tags, categories, summary, ...) are
omitted. -/

/-- `app/models/conversation.py`, class `Message`. -/
structure Message where
  role : String
  content : String
  timestamp : ℚ
deriving DecidableEq

/-- `app/models/conversation.py`, class `Conversation` (the fields the
claims are about; `id` is `None` until assigned on persistence). -/
structure Conversation where
  id : Option String
  user_id : String
  title : String
  messages : List Message
  created_at : ℚ
  updated_at : ℚ
deriving DecidableEq

/-- `Conversation.full_text`: space-joined `"role: content"` lines. -/
def fullText (c : Conversation) : String :=
  String.intercalate " " (c.messages.map (fun m => m.role ++ ": " ++ m.content))

/-- `app/models/embedding.py`, class `ConversationEmbedding`. -/
structure ConversationEmbedding where
  conversation_id : String
  conversation_title : String
  text_chunk : String
  embedding : List ℝ
  chunk_index : ℕ

/-! ## 4.6 Analysis pipeline re-embed stage:
`AnalysisService._generate_and_store_embeddings`

The embedding store is modeled as a list of `ConversationEmbedding`
records; `EmbeddingRepository.delete_by_conversation_id` removes the
records with the given conversation id and `batch_create` appends.  The
external embedding model is the function argument `embed`.  The result is
`none` when the inner `chunk_text` call runs out of fuel. -/

/-- `EmbeddingRepository.delete_by_conversation_id`. -/
def delete_by_conversation_id (cid : String)
    (store : List ConversationEmbedding) : List ConversationEmbedding :=
  store.filter (fun e => e.conversation_id != cid)

/-- `AnalysisService._generate_and_store_embeddings(conversation)` as a
transformer of the embedding store.  Note the order of operations in the
source: the existing embeddings are deleted *before* the empty-text check. -/
def generateAndStoreEmbeddings (embed : String → List ℝ) (fuel : ℕ)
    (conv : Conversation) (store : List ConversationEmbedding) :
    Option (List ConversationEmbedding) :=
  match conv.id with
  | none => some store
  | some cid =>
      let store1 := delete_by_conversation_id cid store
      let full_text := fullText conv
      if full_text = "" ∨ (pyStrip full_text.toList).length = 0 then some store1
      else
        match chunk_text full_text.toList 1000 200 fuel with
        | none => none
        | some chunks =>
            some (store1 ++ chunks.enum.map (fun p =>
              ⟨cid, conv.title, String.mk p.2, embed (String.mk p.2), p.1⟩))

/-- A conversation that has an id but no messages (so empty full text). -/
def convEmptyText : Conversation := ⟨some "c", "u", "t", [], 0, 0⟩

/-- C3 (refuting counterexample): a conversation with an id and empty full
text does *not* leave the store unchanged — the stage deletes the
previously stored embeddings for that id before the empty-text check, so
the prior embedding is removed. -/
theorem generateAndStore_empty_text_deletes :
    fullText convEmptyText = "" ∧
      generateAndStoreEmbeddings (fun _ => []) 0 convEmptyText
          [⟨"c", "t", "x", [], 0⟩] = some [] ∧
      (some [⟨"c", "t", "x", [], 0⟩] :
          Option (List ConversationEmbedding)) ≠ some [] := by
  refine ⟨rfl, rfl, ?_⟩
  intro h
  simp at h

/-- C3 (amended): when the conversation has no id the re-embed stage
performs no state change at all; when it has an id but empty (or
whitespace-only) full text, the stage deletes exactly the stored
embeddings carrying that conversation id — leaving all embeddings of other
conversations unchanged — and stores nothing new. -/
theorem generateAndStore_skip_frame (embed : String → List ℝ) (fuel : ℕ)
    (conv : Conversation) (store : List ConversationEmbedding) :
    (conv.id = none →
        generateAndStoreEmbeddings embed fuel conv store = some store) ∧
      (∀ cid, conv.id = some cid →
        (fullText conv = "" ∨ (pyStrip (fullText conv).toList).length = 0) →
        generateAndStoreEmbeddings embed fuel conv store =
          some (delete_by_conversation_id cid store)) := by
  constructor
  · intro h
    unfold generateAndStoreEmbeddings
    rw [h]
  · intro cid hcid hempty
    unfold generateAndStoreEmbeddings
    rw [hcid]
    simp only
    rw [if_pos hempty]

/-- Witness for C3 (amended) at concrete inputs: a conversation with no id
leaves a one-element store unchanged. -/
theorem generateAndStore_skip_frame_witness :
    (⟨none, "u", "t", [], 0, 0⟩ : Conversation).id = none ∧
      generateAndStoreEmbeddings (fun _ => []) 0 ⟨none, "u", "t", [], 0, 0⟩
          [⟨"d", "t", "x", [], 0⟩] = some [⟨"d", "t", "x", [], 0⟩] :=
  ⟨rfl, (generateAndStore_skip_frame (fun _ => []) 0 ⟨none, "u", "t", [], 0, 0⟩
    [⟨"d", "t", "x", [], 0⟩]).1 rfl⟩

/-! ## 4.4 Export Tree Parser: `parse_single_conversation`
(`app/utils/optimized_import.py`) and the per-conversation body of
`parse_chatgpt_export` (`app/utils/chat_import.py`)

The export mapping is a dict from node id to node; dicts are modeled as
insertion-ordered association lists.  A node always carries a `children`
list in the model (a missing `children` key and an empty list make the
walk stop in exactly the same way).  `utcnow` is the parameter `now`. -/

/-- The optional `message` payload of a node: author role (`None` when the
`author` object or its `role` key is missing, defaulted to `"user"`),
content `parts` (`none` when the `content` key is missing), and the
optional numeric `create_time`. -/
structure PyMessage where
  author_role : Option String
  content_parts : Option (List String)
  create_time : Option ℚ

/-- One node of the export mapping. -/
structure PyNode where
  parent : Option String
  children : List String
  message : Option PyMessage

/-- One element of the export array: optional `title` and the `mapping`
dict (missing mapping modeled as the empty list). -/
structure ConvData where
  title : Option String
  mapping : List (String × PyNode)

/-- The per-node message extraction: join the content parts with spaces,
default the role to `"user"`, skip `system` messages, convert `create_time`
(Python falsiness: `None` and `0` both fall back to `utcnow`), and keep the
message only when the text is non-empty and the role is `user` or
`assistant`. -/
def msgOfNode (now : ℚ) (m : PyMessage) : Option Message :=
  match m.content_parts with
  | none => none
  | some parts =>
      let text := String.intercalate " " parts
      let role := m.author_role.getD "user"
      if role = "system" then none
      else
        let timestamp : ℚ :=
          match m.create_time with
          | some ct => if ct ≠ 0 then ct else now
          | none => now
        if text ≠ "" ∧ (role = "user" ∨ role = "assistant") then
          some ⟨role, text, timestamp⟩
        else none

/-- The root search: the first node (in insertion order) with no parent and
a non-empty children list contributes its first child as the start of the
thread. -/
def findRoot (mapping : List (String × PyNode)) : List String :=
  match mapping.find? (fun p => p.2.parent.isNone && !p.2.children.isEmpty) with
  | some p =>
      match p.2.children with
      | c :: _ => [c]
      | [] => []
  | none => []

/-- The loop condition and body head of the thread-following `while`: the
id to append next, i.e. the first child of the node (if any) found for the
last entry of `message_order`; `none` in every situation where the Python
loop stops (empty order, id not in the mapping, or empty children list). -/
def nextChild (mapping : List (String × PyNode)) (order : List String) :
    Option String :=
  match order.getLast? with
  | none => none
  | some lastId =>
      match mapping.lookup lastId with
      | none => none
      | some node => node.children.head?

/-- The `while` loop following the first child of the last node in
`message_order`, with fuel spent only on actual iterations (so an input on
which the Python loop exits yields `some` for every fuel, and a cyclic
mapping yields `none` for every fuel). -/
def followThread (mapping : List (String × PyNode)) :
    ℕ → List String → Option (List String)
  | 0, order =>
      match nextChild mapping order with
      | none => some order
      | some _ => none
  | fuel + 1, order =>
      match nextChild mapping order with
      | none => some order
      | some c => followThread mapping fuel (order ++ [c])

/-- The message-extraction `for` loop over the collected `message_order`. -/
def extractMessages (mapping : List (String × PyNode)) (now : ℚ)
    (order : List String) : List Message :=
  order.filterMap (fun msg_id =>
    (mapping.lookup msg_id).bind (fun node => node.message.bind (msgOfNode now)))

/-- `parse_single_conversation(conv_data, user_id)` from
`app/utils/optimized_import.py`.  The outer `Option` is fuel exhaustion of
the thread-following loop; the inner `Option` is the `None` result
(conversation skipped). -/
def parse_single_conversation (now : ℚ) (fuel : ℕ) (cd : ConvData)
    (uid : String) : Option (Option Conversation) :=
  let title := cd.title.getD "Imported Conversation"
  if cd.mapping.isEmpty then some none
  else
    match followThread cd.mapping fuel (findRoot cd.mapping) with
    | none => none
    | some order =>
        let messages := extractMessages cd.mapping now order
        if messages.isEmpty then some none
        else
          some (some ⟨none, uid, title, messages,
            ((messages.head?).map Message.timestamp).getD now,
            ((messages.getLast?).map Message.timestamp).getD now⟩)

/-- The per-conversation body of `parse_chatgpt_export` from
`app/utils/chat_import.py`.  It differs from `parse_single_conversation`
only in the thread loop having no emptiness guard: on an empty
`message_order` the `message_order[-1]` lookup raises `IndexError`, the
surrounding `except` skips the conversation (modeled as `some none`). -/
def parse_chatgpt_export_one (now : ℚ) (fuel : ℕ) (cd : ConvData)
    (uid : String) : Option (Option Conversation) :=
  let title := cd.title.getD "Imported Conversation"
  if cd.mapping.isEmpty then some none
  else
    let order0 := findRoot cd.mapping
    if order0.isEmpty then some none
    else
      match followThread cd.mapping fuel order0 with
      | none => none
      | some order =>
          let messages := extractMessages cd.mapping now order
          if messages.isEmpty then some none
          else
            some (some ⟨none, uid, title, messages,
              ((messages.head?).map Message.timestamp).getD now,
              ((messages.getLast?).map Message.timestamp).getD now⟩)

lemma followThread_nil (mapping : List (String × PyNode)) (fuel : ℕ) :
    followThread mapping fuel [] = some [] := by
  cases fuel <;> rfl

/-- The two import paths parse a single conversation identically: when the
root search yields nothing, the streaming path walks an empty thread and
drops the conversation for having no messages, which coincides with the
one-shot path dropping it via the `IndexError` handler. -/
lemma parse_chatgpt_export_one_eq (now : ℚ) (fuel : ℕ) (cd : ConvData)
    (uid : String) :
    parse_chatgpt_export_one now fuel cd uid =
      parse_single_conversation now fuel cd uid := by
  unfold parse_chatgpt_export_one parse_single_conversation
  by_cases hm : cd.mapping.isEmpty
  · rw [if_pos hm, if_pos hm]
  · rw [if_neg hm, if_neg hm]
    by_cases h0 : (findRoot cd.mapping).isEmpty
    · rw [if_pos h0]
      have h1 : findRoot cd.mapping = [] := by
        rwa [List.isEmpty_iff] at h0
      rw [h1, followThread_nil]
      simp [extractMessages]
    · rw [if_neg h0]

lemma msgOfNode_spec (now : ℚ) (pm : PyMessage) (m : Message)
    (h : msgOfNode now pm = some m) :
    (m.role = "user" ∨ m.role = "assistant") ∧ m.content ≠ "" ∧
      m.role ≠ "system" := by
  unfold msgOfNode at h
  cases hcp : pm.content_parts with
  | none => rw [hcp] at h; exact absurd h (by simp)
  | some parts =>
      rw [hcp] at h
      simp only at h
      by_cases hrole : pm.author_role.getD "user" = "system"
      · rw [if_pos hrole] at h
        exact absurd h (by simp)
      · rw [if_neg hrole] at h
        by_cases hkeep : String.intercalate " " parts ≠ "" ∧
            (pm.author_role.getD "user" = "user" ∨
              pm.author_role.getD "user" = "assistant")
        · rw [if_pos hkeep] at h
          simp only [Option.some.injEq] at h
          subst h
          refine ⟨hkeep.2, hkeep.1, ?_⟩
          rcases hkeep.2 with hr | hr <;> rw [hr] <;> simp
        · rw [if_neg hkeep] at h
          exact absurd h (by simp)

lemma parse_single_conversation_inv (now : ℚ) (fuel : ℕ) (cd : ConvData)
    (uid : String) (c : Conversation)
    (h : parse_single_conversation now fuel cd uid = some (some c)) :
    (∃ order, c.messages = extractMessages cd.mapping now order) ∧
      c.messages ≠ [] ∧
      c.created_at = ((c.messages.head?).map Message.timestamp).getD now ∧
      c.updated_at = ((c.messages.getLast?).map Message.timestamp).getD now := by
  unfold parse_single_conversation at h
  by_cases hm : cd.mapping.isEmpty
  · rw [if_pos hm] at h
    exact absurd h (by simp)
  · rw [if_neg hm] at h
    cases hft : followThread cd.mapping fuel (findRoot cd.mapping) with
    | none =>
        rw [hft] at h
        exact absurd h (by simp)
    | some order =>
        rw [hft] at h
        simp only at h
        by_cases he : (extractMessages cd.mapping now order).isEmpty
        · rw [if_pos he] at h
          exact absurd h (by simp)
        · rw [if_neg he] at h
          simp only [Option.some.injEq] at h
          subst h
          refine ⟨⟨order, rfl⟩, ?_, rfl, rfl⟩
          show extractMessages cd.mapping now order ≠ []
          rw [ne_eq, ← List.isEmpty_iff]
          exact he

lemma pairwise_head_le_getLast (l : List ℚ) (d : ℚ) (hne : l ≠ [])
    (hp : l.Pairwise (fun a b => a ≤ b)) :
    l.head?.getD d ≤ l.getLast?.getD d := by
  cases l with
  | nil => exact absurd rfl hne
  | cons a t =>
      rw [List.pairwise_cons] at hp
      rw [List.getLast?_eq_getLast (a :: t) (by simp)]
      simp only [List.head?_cons, Option.getD_some]
      have hmem := @List.getLast_mem _ (a :: t) (by simp)
      rw [List.mem_cons] at hmem
      rcases hmem with hl | hl
      · exact le_of_eq hl.symm
      · exact hp.1 _ hl

/-- A mapping whose two thread messages carry decreasing `create_time`
values (100 then 50). -/
def cdC6 : ConvData :=
  ⟨some "T",
    [("r", ⟨none, ["A"], none⟩),
      ("A", ⟨some "r", ["B"], some ⟨some "user", some ["hi"], some 100⟩⟩),
      ("B", ⟨some "A", [], some ⟨some "assistant", some ["yo"], some 50⟩⟩)]⟩

/-- The conversation the parser produces from `cdC6`: `created_at = 100`
but `updated_at = 50`. -/
def convC6 : Conversation :=
  ⟨none, "u", "T", [⟨"user", "hi", 100⟩, ⟨"assistant", "yo", 50⟩], 100, 50⟩

/-- C6 (refuting counterexample): on a linear mapping whose messages carry
decreasing `create_time` values the parser produces a conversation with
`updated_at < created_at`, violating the claimed invariant
`updated_at >= created_at`. -/
theorem parse_single_updated_lt_created :
    parse_single_conversation 0 10 cdC6 "u" = some (some convC6) ∧
      ¬ convC6.created_at ≤ convC6.updated_at := by
  constructor
  · rfl
  · decide

/-- C6 (amended): for a conversation produced by either import path,
`created_at`/`updated_at` are the first/last retained message timestamps,
so `updated_at >= created_at` holds whenever the retained messages carry
non-decreasing timestamps; for arbitrary (decreasing) `create_time` values
the invariant can fail. -/
theorem conversation_timestamps_monotone (now : ℚ) (fuel : ℕ) (cd : ConvData)
    (uid : String) (c : Conversation)
    (h : parse_single_conversation now fuel cd uid = some (some c) ∨
      parse_chatgpt_export_one now fuel cd uid = some (some c))
    (hmono : (c.messages.map Message.timestamp).Pairwise (fun a b => a ≤ b)) :
    c.created_at ≤ c.updated_at := by
  have hps : parse_single_conversation now fuel cd uid = some (some c) := by
    rcases h with h | h
    · exact h
    · rwa [parse_chatgpt_export_one_eq] at h
  obtain ⟨_, hne, hcr, hup⟩ := parse_single_conversation_inv now fuel cd uid c hps
  rw [hcr, hup]
  have hne2 : c.messages.map Message.timestamp ≠ [] := by simpa using hne
  have hle := pairwise_head_le_getLast (c.messages.map Message.timestamp) now
    hne2 hmono
  rwa [List.head?_map, List.getLast?_map] at hle

/-- A linear mapping with increasing `create_time` values (10 then 20). -/
def cdC6w : ConvData :=
  ⟨some "T",
    [("r", ⟨none, ["A"], none⟩),
      ("A", ⟨some "r", ["B"], some ⟨some "user", some ["hi"], some 10⟩⟩),
      ("B", ⟨some "A", [], some ⟨some "assistant", some ["yo"], some 20⟩⟩)]⟩

/-- The conversation produced from `cdC6w`. -/
def convC6w : Conversation :=
  ⟨none, "u", "T", [⟨"user", "hi", 10⟩, ⟨"assistant", "yo", 20⟩], 10, 20⟩

/-- Witness for C6 (amended) at a concrete input with increasing
timestamps. -/
theorem conversation_timestamps_monotone_witness :
    (parse_single_conversation 0 10 cdC6w "u" = some (some convC6w) ∨
        parse_chatgpt_export_one 0 10 cdC6w "u" = some (some convC6w)) ∧
      (convC6w.messages.map Message.timestamp).Pairwise (fun a b => a ≤ b) ∧
      convC6w.created_at ≤ convC6w.updated_at :=
  ⟨Or.inl rfl, by decide,
    conversation_timestamps_monotone 0 10 cdC6w "u" convC6w (Or.inl rfl)
      (by decide)⟩

/-- C8: every message of a conversation produced by either import path has
role `user` or `assistant` and non-empty content; in particular no
`system`-authored node ever contributes a message. -/
theorem parse_messages_user_assistant (now : ℚ) (fuel : ℕ) (cd : ConvData)
    (uid : String) (c : Conversation)
    (h : parse_single_conversation now fuel cd uid = some (some c) ∨
      parse_chatgpt_export_one now fuel cd uid = some (some c)) :
    ∀ m ∈ c.messages, (m.role = "user" ∨ m.role = "assistant") ∧
      m.content ≠ "" ∧ m.role ≠ "system" := by
  have hps : parse_single_conversation now fuel cd uid = some (some c) := by
    rcases h with h | h
    · exact h
    · rwa [parse_chatgpt_export_one_eq] at h
  obtain ⟨⟨order, horder⟩, -, -, -⟩ :=
    parse_single_conversation_inv now fuel cd uid c hps
  intro m hm
  rw [horder] at hm
  unfold extractMessages at hm
  rw [List.mem_filterMap] at hm
  obtain ⟨a, -, ha⟩ := hm
  rw [Option.bind_eq_some] at ha
  obtain ⟨node, -, hnode⟩ := ha
  rw [Option.bind_eq_some] at hnode
  obtain ⟨pm, -, hpm⟩ := hnode
  exact msgOfNode_spec now pm m hpm

/-- A mapping whose thread is `system`, then `user`, then a node with empty
text (dropped), for the C8 witness. -/
def cdC8w : ConvData :=
  ⟨some "S",
    [("root", ⟨none, ["s1"], none⟩),
      ("s1", ⟨some "root", ["m1"], some ⟨some "system", some ["sys"], some 1⟩⟩),
      ("m1", ⟨some "s1", ["m2"], some ⟨some "user", some ["hello"], some 2⟩⟩),
      ("m2", ⟨some "m1", [], some ⟨some "assistant", some [], some 3⟩⟩)]⟩

/-- The conversation produced from `cdC8w`: only the `user` message
survives. -/
def convC8w : Conversation :=
  ⟨none, "u", "S", [⟨"user", "hello", 2⟩], 2, 2⟩

/-- Witness for C8 at a concrete input containing a `system` node and an
empty-text node. -/
theorem parse_messages_user_assistant_witness :
    (parse_single_conversation 0 10 cdC8w "u" = some (some convC8w) ∨
        parse_chatgpt_export_one 0 10 cdC8w "u" = some (some convC8w)) ∧
      ∀ m ∈ convC8w.messages, (m.role = "user" ∨ m.role = "assistant") ∧
        m.content ≠ "" ∧ m.role ≠ "system" :=
  ⟨Or.inl rfl,
    parse_messages_user_assistant 0 10 cdC8w "u" convC8w (Or.inl rfl)⟩

/-! ## 4.5 Streaming Bulk Importer, part 1: `stream_json_array`
(`app/utils/optimized_import.py`)

A model of `json.loads` is needed on both sides: the scanner applies it to
each delimited span, and the equivalence claim compares the scanner with a
whole-document parse.  JSON values are modeled with numbers and string
contents kept as their raw source lexemes (string escapes undecoded):
both sides of the equivalence parse the very same span text, so any
deterministic lexeme interpretation yields the same comparison. -/

/-- JSON values, with numeric and string lexemes kept raw. -/
inductive Json where
  | null
  | bool (b : Bool)
  | num (lexeme : List Char)
  | str (raw : List Char)
  | arr (elements : List Json)
  | obj (members : List (List Char × Json))

/-- The JSON whitespace characters accepted between tokens by
`json.loads`. -/
def jsonWs (c : Char) : Bool :=
  c == ' ' || c == '\t' || c == '\n' || c == '\r'

/-- Skip inter-token whitespace. -/
def skipWs (s : List Char) : List Char := s.dropWhile jsonWs

/-- Characters that may continue a numeric lexeme. -/
def isNumChar (c : Char) : Bool :=
  c.isDigit || c == '-' || c == '+' || c == '.' || c == 'e' || c == 'E'

/-- Lex the body of a string literal (the opening quote already consumed):
returns the raw contents (escape sequences intact) and the input after the
closing quote. -/
def scanStringBody : List Char → Option (List Char × List Char)
  | [] => none
  | c :: rest =>
      if c = '"' then some ([], rest)
      else if c = '\\' then
        match rest with
        | [] => none
        | c2 :: rest2 =>
            (scanStringBody rest2).map (fun p => (c :: c2 :: p.1, p.2))
      else (scanStringBody rest).map (fun p => (c :: p.1, p.2))

mutual

/-- Recursive-descent JSON value parser (model of `json.loads`), with fuel;
the input must start directly at the value (callers skip whitespace).
Returns the value and the unconsumed rest. -/
def parseValue : ℕ → List Char → Option (Json × List Char)
  | 0, _ => none
  | fuel + 1, s =>
      match s with
      | '"' :: rest => (scanStringBody rest).map (fun p => (Json.str p.1, p.2))
      | '{' :: rest =>
          match skipWs rest with
          | '}' :: r2 => some (Json.obj [], r2)
          | r1 => (parseMembers fuel r1).map (fun p => (Json.obj p.1, p.2))
      | '[' :: rest =>
          match skipWs rest with
          | ']' :: r2 => some (Json.arr [], r2)
          | r1 => (parseElems fuel r1).map (fun p => (Json.arr p.1, p.2))
      | 'n' :: 'u' :: 'l' :: 'l' :: rest => some (Json.null, rest)
      | 't' :: 'r' :: 'u' :: 'e' :: rest => some (Json.bool true, rest)
      | 'f' :: 'a' :: 'l' :: 's' :: 'e' :: rest => some (Json.bool false, rest)
      | c :: rest =>
          if isNumChar c then
            some (Json.num (c :: rest.takeWhile isNumChar),
              rest.dropWhile isNumChar)
          else none
      | [] => none

/-- Parse the members of an object after its `{` and any whitespace,
consuming the closing `}`. -/
def parseMembers : ℕ → List Char → Option (List (List Char × Json) × List Char)
  | 0, _ => none
  | fuel + 1, s =>
      match s with
      | '"' :: rest =>
          match scanStringBody rest with
          | none => none
          | some (key, r1) =>
              match skipWs r1 with
              | ':' :: r2 =>
                  match parseValue fuel (skipWs r2) with
                  | none => none
                  | some (v, r3) =>
                      match skipWs r3 with
                      | ',' :: r4 =>
                          (parseMembers fuel (skipWs r4)).map
                            (fun p => ((key, v) :: p.1, p.2))
                      | '}' :: r4 => some ([(key, v)], r4)
                      | _ => none
              | _ => none
      | _ => none

/-- Parse the elements of an array after its `[` and any whitespace,
consuming the closing `]`. -/
def parseElems : ℕ → List Char → Option (List Json × List Char)
  | 0, _ => none
  | fuel + 1, s =>
      match parseValue fuel s with
      | none => none
      | some (v, r1) =>
          match skipWs r1 with
          | ',' :: r2 =>
              (parseElems fuel (skipWs r2)).map (fun p => (v :: p.1, p.2))
          | ']' :: r2 => some ([v], r2)
          | _ => none

end

/-- `json.loads`: parse one value surrounded by optional whitespace,
requiring the whole input to be consumed.  The fuel `2*|s| + 2` dominates
the recursion depth (at most two nested calls per consumed character). -/
def jsonLoads (s : List Char) : Option Json :=
  match parseValue (2 * s.length + 2) (skipWs s) with
  | some (v, rest) => if skipWs rest = [] then some v else none
  | none => none

/-- Whether a JSON value is an object. -/
def Json.isObj : Json → Bool
  | .obj _ => true
  | _ => false

/-- The scanner state of `stream_json_array`: the `in_string` and
`escape_next` flags, the brace-nesting `depth`, the `start` index of the
current top-level object, the current character index (`pos`, the `i` of
`enumerate`), and the spans `(start, i)` delimited so far (the code slices
`content[start:i+1]` at each emission). -/
@[ext]
structure ScanSt where
  inString : Bool
  escapeNext : Bool
  depth : ℤ
  start : ℕ
  pos : ℕ
  spans : List (ℕ × ℕ)

/-- One character step of the scanner.  Mirrors the loop body: toggle
`in_string` on an unescaped quote, update `escape_next` (using the updated
`in_string`, which equals the old one whenever the character is a
backslash), and track braces only outside strings — on `{` at depth 0
record `start`, on `}` returning the depth to 0 record the span.  The
trailing comma-skipping `while` of the source mutates the loop variable of
a `for` statement and is a no-op, so it has no counterpart here. -/
def scanStep (st : ScanSt) (c : Char) : ScanSt :=
  let inString :=
    if c == '"' && !st.escapeNext then !st.inString else st.inString
  let escapeNext := if inString && c == '\\' then !st.escapeNext else false
  if !inString && c == '{' then
    { inString := inString, escapeNext := escapeNext, depth := st.depth + 1,
      start := if st.depth = 0 then st.pos else st.start,
      pos := st.pos + 1, spans := st.spans }
  else if !inString && c == '}' then
    { inString := inString, escapeNext := escapeNext, depth := st.depth - 1,
      start := st.start, pos := st.pos + 1,
      spans := if st.depth - 1 = 0 then st.spans ++ [(st.start, st.pos)]
        else st.spans }
  else
    { inString := inString, escapeNext := escapeNext, depth := st.depth,
      start := st.start, pos := st.pos + 1, spans := st.spans }

/-- Run the scanner over a list of characters. -/
def scanRun (st : ScanSt) (cs : List Char) : ScanSt := cs.foldl scanStep st

/-- The scanner state at the start of the character loop. -/
def initScanSt : ScanSt := ⟨false, false, 0, 0, 0, []⟩

/-- `content[start:i+1]` for a recorded span `(start, i)`. -/
def sliceSpan (content : List Char) (sp : ℕ × ℕ) : List Char :=
  (content.drop sp.1).take (sp.2 + 1 - sp.1)

/-- `stream_json_array(file_content)`: require the stripped input to start
with `[` (else `ValueError`, modeled as `none`), drop that bracket, scan
the remainder, and yield `json.loads` of each delimited span, skipping
spans that fail to parse. -/
def streamJsonArray (s : List Char) : Option (List Json) :=
  match pyStrip s with
  | '[' :: content =>
      some ((scanRun initScanSt content).spans.filterMap
        (fun sp => jsonLoads (sliceSpan content sp)))
  | _ => none

/-! ### Unfolding equations and elementary lemmas for the scanner proof -/

lemma scanStringBody_nil : scanStringBody [] = none := rfl

lemma scanStringBody_cons (c : Char) (rest : List Char) :
    scanStringBody (c :: rest) =
      if c = '"' then some ([], rest)
      else if c = '\\' then
        match rest with
        | [] => none
        | c2 :: rest2 =>
            (scanStringBody rest2).map (fun p => (c :: c2 :: p.1, p.2))
      else (scanStringBody rest).map (fun p => (c :: p.1, p.2)) := by
  rw [scanStringBody.eq_def]

lemma scanStringBody_eq (s : List Char) :
    ∀ raw rest, scanStringBody s = some (raw, rest) →
      s = raw ++ '"' :: rest := by
  induction s using scanStringBody.induct with
  | case1 => intro raw r h; exact absurd h (by rw [scanStringBody_nil]; simp)
  | case2 rest2 =>
      intro raw r h
      rw [scanStringBody_cons, if_pos rfl] at h
      simp only [Option.some.injEq, Prod.mk.injEq] at h
      rw [← h.1, ← h.2]
      rfl
  | case3 h3 =>
      intro raw r h
      rw [scanStringBody_cons, if_neg h3, if_pos rfl] at h
      exact absurd h (by simp)
  | case4 c2 rest2 hq ih =>
      intro raw r h
      rw [scanStringBody_cons, if_neg hq, if_pos rfl] at h
      simp only [Option.map_eq_some'] at h
      obtain ⟨⟨raw1, rest1⟩, h1, h2⟩ := h
      simp only [Prod.mk.injEq] at h2
      rw [← h2.1, ← h2.2]
      have := ih raw1 rest1 h1
      simp [this]
  | case5 c2 rest2 hq hb ih =>
      intro raw r h
      rw [scanStringBody_cons, if_neg hq, if_neg hb] at h
      simp only [Option.map_eq_some'] at h
      obtain ⟨⟨raw1, rest1⟩, h1, h2⟩ := h
      simp only [Prod.mk.injEq] at h2
      rw [← h2.1, ← h2.2]
      have := ih raw1 rest1 h1
      simp [this]

lemma scanStringBody_reparse (s : List Char) :
    ∀ raw rest, scanStringBody s = some (raw, rest) →
      ∀ rest2, scanStringBody (raw ++ '"' :: rest2) = some (raw, rest2) := by
  induction s using scanStringBody.induct with
  | case1 => intro raw r h; exact absurd h (by rw [scanStringBody_nil]; simp)
  | case2 rest2 =>
      intro raw r h
      rw [scanStringBody_cons, if_pos rfl] at h
      simp only [Option.some.injEq, Prod.mk.injEq] at h
      intro rest3
      rw [← h.1]
      rw [List.nil_append, scanStringBody_cons, if_pos rfl]
  | case3 h3 =>
      intro raw r h
      rw [scanStringBody_cons, if_neg h3, if_pos rfl] at h
      exact absurd h (by simp)
  | case4 c2 rest2 hq ih =>
      intro raw r h
      rw [scanStringBody_cons, if_neg hq, if_pos rfl] at h
      simp only [Option.map_eq_some'] at h
      obtain ⟨⟨raw1, rest1⟩, h1, h2⟩ := h
      simp only [Prod.mk.injEq] at h2
      intro rest3
      rw [← h2.1]
      have := ih raw1 rest1 h1 rest3
      rw [List.cons_append, List.cons_append, scanStringBody_cons, if_neg hq,
        if_pos rfl]
      simp [this]
  | case5 c2 rest2 hq hb ih =>
      intro raw r h
      rw [scanStringBody_cons, if_neg hq, if_neg hb] at h
      simp only [Option.map_eq_some'] at h
      obtain ⟨⟨raw1, rest1⟩, h1, h2⟩ := h
      simp only [Prod.mk.injEq] at h2
      intro rest3
      rw [← h2.1]
      have := ih raw1 rest1 h1 rest3
      rw [List.cons_append, scanStringBody_cons, if_neg hq, if_neg hb]
      simp [this]

lemma parseValue_zero (s : List Char) : parseValue 0 s = none := rfl

set_option maxHeartbeats 1000000 in
lemma parseValue_succ (fuel : ℕ) (s : List Char) :
    parseValue (fuel + 1) s =
      match s with
      | '"' :: rest => (scanStringBody rest).map (fun p => (Json.str p.1, p.2))
      | '{' :: rest =>
          match skipWs rest with
          | '}' :: r2 => some (Json.obj [], r2)
          | r1 => (parseMembers fuel r1).map (fun p => (Json.obj p.1, p.2))
      | '[' :: rest =>
          match skipWs rest with
          | ']' :: r2 => some (Json.arr [], r2)
          | r1 => (parseElems fuel r1).map (fun p => (Json.arr p.1, p.2))
      | 'n' :: 'u' :: 'l' :: 'l' :: rest => some (Json.null, rest)
      | 't' :: 'r' :: 'u' :: 'e' :: rest => some (Json.bool true, rest)
      | 'f' :: 'a' :: 'l' :: 's' :: 'e' :: rest => some (Json.bool false, rest)
      | c :: rest =>
          if isNumChar c then
            some (Json.num (c :: rest.takeWhile isNumChar),
              rest.dropWhile isNumChar)
          else none
      | [] => none := by
  rw [parseValue.eq_def]

lemma parseMembers_zero (s : List Char) : parseMembers 0 s = none := rfl

set_option maxHeartbeats 1000000 in
lemma parseMembers_succ (fuel : ℕ) (s : List Char) :
    parseMembers (fuel + 1) s =
      match s with
      | '"' :: rest =>
          match scanStringBody rest with
          | none => none
          | some (key, r1) =>
              match skipWs r1 with
              | ':' :: r2 =>
                  match parseValue fuel (skipWs r2) with
                  | none => none
                  | some (v, r3) =>
                      match skipWs r3 with
                      | ',' :: r4 =>
                          (parseMembers fuel (skipWs r4)).map
                            (fun p => ((key, v) :: p.1, p.2))
                      | '}' :: r4 => some ([(key, v)], r4)
                      | _ => none
              | _ => none
      | _ => none := by
  rw [parseMembers.eq_def]

lemma parseElems_zero (s : List Char) : parseElems 0 s = none := rfl

set_option maxHeartbeats 1000000 in
lemma parseElems_succ (fuel : ℕ) (s : List Char) :
    parseElems (fuel + 1) s =
      match parseValue fuel s with
      | none => none
      | some (v, r1) =>
          match skipWs r1 with
          | ',' :: r2 =>
              (parseElems fuel (skipWs r2)).map (fun p => (v :: p.1, p.2))
          | ']' :: r2 => some ([v], r2)
          | _ => none := by
  rw [parseElems.eq_def]

lemma jsonWs_cases (c : Char) (h : jsonWs c = true) :
    c = ' ' ∨ c = '\t' ∨ c = '\n' ∨ c = '\r' := by
  simp only [jsonWs, Bool.or_eq_true, beq_iff_eq] at h
  tauto

lemma jsonWs_not_num (c : Char) (h : jsonWs c = true) : isNumChar c = false := by
  rcases jsonWs_cases c h with rfl | rfl | rfl | rfl <;> rfl

lemma jsonWs_pyIsSpace (c : Char) (h : jsonWs c = true) : pyIsSpace c = true := by
  rcases jsonWs_cases c h with rfl | rfl | rfl | rfl <;> rfl

lemma jsonWs_neutral (c : Char) (h : jsonWs c = true) :
    c ≠ '"' ∧ c ≠ '{' ∧ c ≠ '}' := by
  rcases jsonWs_cases c h with rfl | rfl | rfl | rfl <;> exact ⟨by decide, by decide, by decide⟩

lemma isNumChar_neutral (c : Char) (h : isNumChar c = true) :
    c ≠ '"' ∧ c ≠ '{' ∧ c ≠ '}' := by
  refine ⟨?_, ?_, ?_⟩ <;> rintro rfl <;> simp [isNumChar] at h

lemma skipWs_decomp (x : List Char) :
    ∃ w, x = w ++ skipWs x ∧ (∀ c ∈ w, jsonWs c = true) ∧
      ∀ c, (skipWs x).head? = some c → jsonWs c = false := by
  induction x with
  | nil => exact ⟨[], rfl, by simp, by simp [skipWs]⟩
  | cons c t ih =>
      by_cases hc : jsonWs c = true
      · obtain ⟨w, hw, hall, hhd⟩ := ih
        refine ⟨c :: w, ?_, ?_, ?_⟩
        · rw [skipWs, List.dropWhile_cons, if_pos hc]
          rw [skipWs] at hw
          rw [List.cons_append, ← hw]
        · intro d hd
          rcases List.mem_cons.mp hd with rfl | hd
          · exact hc
          · exact hall d hd
        · rw [skipWs, List.dropWhile_cons, if_pos hc]
          exact hhd
      · refine ⟨[], ?_, by simp, ?_⟩
        · rw [skipWs, List.dropWhile_cons, if_neg hc, List.nil_append]
        · rw [skipWs, List.dropWhile_cons, if_neg hc]
          intro d hd
          simp only [List.head?_cons, Option.some.injEq] at hd
          rw [← hd]
          exact Bool.eq_false_iff.mpr hc

lemma dropWhile_append_all {p : Char → Bool} {w : List Char}
    (hw : ∀ c ∈ w, p c = true) (l : List Char) :
    (w ++ l).dropWhile p = l.dropWhile p := by
  induction w with
  | nil => rfl
  | cons c t ih =>
      rw [List.cons_append, List.dropWhile_cons,
        if_pos (hw c (List.mem_cons_self _ _))]
      exact ih (fun d hd => hw d (List.mem_cons_of_mem _ hd))

lemma skipWs_transfer {x b y : List Char} (h : skipWs (x ++ b) = y ++ b)
    (hy : y ≠ []) (b2 : List Char) : skipWs (x ++ b2) = y ++ b2 := by
  induction x with
  | nil =>
      exfalso
      have hle : (skipWs ([] ++ b)).length ≤ b.length := by
        rw [List.nil_append]
        exact (List.dropWhile_suffix jsonWs).length_le
      rw [h, List.length_append] at hle
      have : 0 < y.length := List.length_pos.mpr hy
      omega
  | cons c t ih =>
      by_cases hc : jsonWs c = true
      · rw [List.cons_append, skipWs, List.dropWhile_cons, if_pos hc] at h
        rw [List.cons_append, skipWs, List.dropWhile_cons, if_pos hc]
        exact ih h
      · rw [List.cons_append, skipWs, List.dropWhile_cons, if_neg hc] at h
        rw [List.cons_append, skipWs, List.dropWhile_cons, if_neg hc]
        rw [← List.cons_append] at h
        have := List.append_cancel_right h
        rw [← List.cons_append, this]


lemma scanRun_nil (st : ScanSt) : scanRun st [] = st := rfl

lemma scanRun_cons (st : ScanSt) (c : Char) (cs : List Char) :
    scanRun st (c :: cs) = scanRun (scanStep st c) cs := rfl

lemma scanRun_append (st : ScanSt) (a b : List Char) :
    scanRun st (a ++ b) = scanRun (scanRun st a) b :=
  List.foldl_append _ _ _ _

lemma scanStep_neutral (st : ScanSt) (c : Char) (h1 : st.inString = false)
    (h2 : st.escapeNext = false) (hq : c ≠ '"') (ho : c ≠ '{')
    (hc : c ≠ '}') :
    scanStep st c = { st with pos := st.pos + 1 } := by
  obtain ⟨i, e, d, s0, p, sp⟩ := st
  simp only at h1 h2
  subst h1
  subst h2
  simp [scanStep, hq, ho, hc]

lemma scanStep_quote_open (st : ScanSt) (h1 : st.inString = false)
    (h2 : st.escapeNext = false) :
    scanStep st '"' = { st with inString := true, pos := st.pos + 1 } := by
  obtain ⟨i, e, d, s0, p, sp⟩ := st
  simp only at h1 h2
  subst h1
  subst h2
  simp [scanStep]

lemma scanStep_open (st : ScanSt) (h1 : st.inString = false)
    (h2 : st.escapeNext = false) :
    scanStep st '{' = { st with
      depth := st.depth + 1
      start := (if st.depth = 0 then st.pos else st.start)
      pos := st.pos + 1 } := by
  obtain ⟨i, e, d, s0, p, sp⟩ := st
  simp only at h1 h2
  subst h1
  subst h2
  simp [scanStep]

lemma scanStep_close (st : ScanSt) (h1 : st.inString = false)
    (h2 : st.escapeNext = false) :
    scanStep st '}' = { st with
      depth := st.depth - 1
      pos := st.pos + 1
      spans := (if st.depth - 1 = 0 then st.spans ++ [(st.start, st.pos)]
        else st.spans) } := by
  obtain ⟨i, e, d, s0, p, sp⟩ := st
  simp only at h1 h2
  subst h1
  subst h2
  simp [scanStep]

lemma scanStep_instring_quote (st : ScanSt) (h1 : st.inString = true)
    (h2 : st.escapeNext = false) :
    scanStep st '"' = { st with inString := false, pos := st.pos + 1 } := by
  obtain ⟨i, e, d, s0, p, sp⟩ := st
  simp only at h1 h2
  subst h1
  subst h2
  simp [scanStep]

lemma scanStep_instring_backslash (st : ScanSt) (h1 : st.inString = true)
    (h2 : st.escapeNext = false) :
    scanStep st '\\' = { st with escapeNext := true, pos := st.pos + 1 } := by
  obtain ⟨i, e, d, s0, p, sp⟩ := st
  simp only at h1 h2
  subst h1
  subst h2
  simp [scanStep]

lemma scanStep_instring_escaped (st : ScanSt) (c : Char)
    (h1 : st.inString = true) (h2 : st.escapeNext = true) :
    scanStep st c = { st with escapeNext := false, pos := st.pos + 1 } := by
  obtain ⟨i, e, d, s0, p, sp⟩ := st
  simp only at h1 h2
  subst h1
  subst h2
  by_cases hq : c = '"'
  · subst hq
    simp [scanStep]
  · by_cases hb : c = '\\'
    · subst hb
      simp [scanStep]
    · simp [scanStep, hq, hb]

lemma scanStep_instring_other (st : ScanSt) (c : Char)
    (h1 : st.inString = true) (h2 : st.escapeNext = false) (hq : c ≠ '"')
    (hb : c ≠ '\\') :
    scanStep st c = { st with pos := st.pos + 1 } := by
  obtain ⟨i, e, d, s0, p, sp⟩ := st
  simp only at h1 h2
  subst h1
  subst h2
  simp [scanStep, hq, hb]

lemma scanRun_neutral (cs : List Char)
    (hall : ∀ c ∈ cs, c ≠ '"' ∧ c ≠ '{' ∧ c ≠ '}') :
    ∀ st : ScanSt, st.inString = false → st.escapeNext = false →
      scanRun st cs = { st with pos := st.pos + cs.length } := by
  induction cs with
  | nil =>
      intro st h1 h2
      rw [scanRun_nil]
      cases st
      simp
  | cons c t ih =>
      intro st h1 h2
      obtain ⟨hq, ho, hc⟩ := hall c (List.mem_cons_self _ _)
      obtain ⟨i, e, d, s0, p, sp⟩ := st
      simp only at h1 h2
      subst h1
      subst h2
      rw [scanRun_cons, scanStep_neutral _ c rfl rfl hq ho hc]
      rw [ih (fun x hx => hall x (List.mem_cons_of_mem _ hx)) _ rfl rfl]
      simp only [List.length_cons]
      congr 1
      omega

lemma scanRun_string (s : List Char) :
    ∀ raw rest, scanStringBody s = some (raw, rest) →
      ∀ st : ScanSt, st.inString = true → st.escapeNext = false →
        scanRun st (raw ++ ['"']) =
          { st with inString := false, pos := st.pos + raw.length + 1 } := by
  induction s using scanStringBody.induct with
  | case1 => intro raw r h; exact absurd h (by rw [scanStringBody_nil]; simp)
  | case2 rest2 =>
      intro raw r h
      rw [scanStringBody_cons, if_pos rfl] at h
      simp only [Option.some.injEq, Prod.mk.injEq] at h
      intro st h1 h2
      obtain ⟨i, e, d, s0, p, sp⟩ := st
      simp only at h1 h2
      subst h1
      subst h2
      rw [← h.1]
      rw [List.nil_append, scanRun_cons, scanStep_instring_quote _ rfl rfl,
        scanRun_nil]
      simp
  | case3 h3 =>
      intro raw r h
      rw [scanStringBody_cons, if_neg h3, if_pos rfl] at h
      exact absurd h (by simp)
  | case4 c2 rest2 hq ih =>
      intro raw r h
      rw [scanStringBody_cons, if_neg hq, if_pos rfl] at h
      simp only [Option.map_eq_some'] at h
      obtain ⟨⟨raw1, rest1⟩, hrec, h2⟩ := h
      simp only [Prod.mk.injEq] at h2
      intro st h1 hesc
      obtain ⟨i, e, d, s0, p, sp⟩ := st
      simp only at h1 hesc
      subst h1
      subst hesc
      rw [← h2.1]
      rw [List.cons_append, List.cons_append, scanRun_cons,
        scanStep_instring_backslash _ rfl rfl, scanRun_cons,
        scanStep_instring_escaped _ c2 rfl rfl]
      rw [ih raw1 rest1 hrec _ rfl rfl]
      simp only [List.length_cons]
      congr 1
      omega
  | case5 c2 rest2 hq hb ih =>
      intro raw r h
      rw [scanStringBody_cons, if_neg hq, if_neg hb] at h
      simp only [Option.map_eq_some'] at h
      obtain ⟨⟨raw1, rest1⟩, hrec, h2⟩ := h
      simp only [Prod.mk.injEq] at h2
      intro st h1 hesc
      obtain ⟨i, e, d, s0, p, sp⟩ := st
      simp only at h1 hesc
      subst h1
      subst hesc
      rw [← h2.1]
      rw [List.cons_append, scanRun_cons,
        scanStep_instring_other _ c2 rfl rfl hq hb]
      rw [ih raw1 rest1 hrec _ rfl rfl]
      simp only [List.length_cons]
      congr 1
      omega

lemma getLast?_append_ne (x y : List Char) (h : y ≠ []) :
    (x ++ y).getLast? = y.getLast? := by
  rw [List.getLast?_append]
  cases hy : y.getLast? with
  | none =>
      exfalso
      exact h (List.getLast?_eq_none_iff.mp hy)
  | some a => rfl

/-- The mutual consumed-prefix lemma: a successful parse consumes a
non-empty prefix; for `parseElems` the consumed prefix moreover ends in a
non-whitespace character (its closing bracket). -/
lemma parse_consumed (fuel : ℕ) :
    (∀ s v rtail, parseValue fuel s = some (v, rtail) →
      ∃ a, s = a ++ rtail ∧ a ≠ []) ∧
    (∀ s ms rtail, parseMembers fuel s = some (ms, rtail) →
      ∃ a, s = a ++ rtail ∧ a ≠ []) ∧
    (∀ s vs rtail, parseElems fuel s = some (vs, rtail) →
      ∃ a, s = a ++ rtail ∧ a ≠ [] ∧
        ∀ c, a.getLast? = some c → pyIsSpace c = false) := by
  induction fuel with
  | zero =>
      refine ⟨?_, ?_, ?_⟩ <;> intro s x rtail h
      · rw [parseValue_zero] at h; exact absurd h (by simp)
      · rw [parseMembers_zero] at h; exact absurd h (by simp)
      · rw [parseElems_zero] at h; exact absurd h (by simp)
  | succ f ih =>
      obtain ⟨ihV, ihM, ihE⟩ := ih
      refine ⟨?_, ?_, ?_⟩
      · intro s v rtail h
        rw [parseValue_succ] at h
        split at h
        · simp only [Option.map_eq_some'] at h
          obtain ⟨⟨raw, r1⟩, hsb, hvr⟩ := h
          simp only [Prod.mk.injEq] at hvr
          have hs := scanStringBody_eq _ raw r1 hsb
          refine ⟨'"' :: (raw ++ ['"']), ?_, by simp⟩
          rw [hs, ← hvr.2]
          simp
        · rename_i rest0
          split at h
          · rename_i r2 heq
            simp only [Option.some.injEq, Prod.mk.injEq] at h
            obtain ⟨w, hw, hall, hhd⟩ := skipWs_decomp rest0
            refine ⟨'{' :: (w ++ ['}']), ?_, by simp⟩
            rw [← h.2]
            rw [show rest0 = w ++ ('}' :: r2) from by rw [hw, heq]]
            simp
          · rename_i hne
            simp only [Option.map_eq_some'] at h
            obtain ⟨⟨ms, rm⟩, hm, hvr⟩ := h
            simp only [Prod.mk.injEq] at hvr
            obtain ⟨am, ham, hamne⟩ := ihM _ _ _ hm
            obtain ⟨w, hw, hall, hhd⟩ := skipWs_decomp rest0
            refine ⟨'{' :: (w ++ am), ?_, by simp⟩
            rw [← hvr.2]
            rw [show rest0 = w ++ (am ++ rm) from by rw [hw, ham]]
            simp
        · rename_i rest0
          split at h
          · rename_i r2 heq
            simp only [Option.some.injEq, Prod.mk.injEq] at h
            obtain ⟨w, hw, hall, hhd⟩ := skipWs_decomp rest0
            refine ⟨'[' :: (w ++ [']']), ?_, by simp⟩
            rw [← h.2]
            rw [show rest0 = w ++ (']' :: r2) from by rw [hw, heq]]
            simp
          · rename_i hne
            simp only [Option.map_eq_some'] at h
            obtain ⟨⟨vs, rm⟩, hm, hvr⟩ := h
            simp only [Prod.mk.injEq] at hvr
            obtain ⟨ae, hae, haene, _⟩ := ihE _ _ _ hm
            obtain ⟨w, hw, hall, hhd⟩ := skipWs_decomp rest0
            refine ⟨'[' :: (w ++ ae), ?_, by simp⟩
            rw [← hvr.2]
            rw [show rest0 = w ++ (ae ++ rm) from by rw [hw, hae]]
            simp
        · simp only [Option.some.injEq, Prod.mk.injEq] at h
          refine ⟨['n', 'u', 'l', 'l'], ?_, by simp⟩
          rw [← h.2]
          rfl
        · simp only [Option.some.injEq, Prod.mk.injEq] at h
          refine ⟨['t', 'r', 'u', 'e'], ?_, by simp⟩
          rw [← h.2]
          rfl
        · simp only [Option.some.injEq, Prod.mk.injEq] at h
          refine ⟨['f', 'a', 'l', 's', 'e'], ?_, by simp⟩
          rw [← h.2]
          rfl
        · rename_i c rest hn1 hn2 hn3 hn4 hn5 hn6
          split_ifs at h with hnum
          · simp only [Option.some.injEq, Prod.mk.injEq] at h
            refine ⟨c :: rest.takeWhile isNumChar, ?_, by simp⟩
            rw [← h.2, List.cons_append, List.takeWhile_append_dropWhile]
        · exact absurd h (by simp)
      · intro s ms rtail h
        rw [parseMembers_succ] at h
        split at h
        · rename_i rest
          split at h
          · exact absurd h (by simp)
          · rename_i p key r1 heq
            split at h
            · rename_i r2 heq2
              split at h
              · exact absurd h (by simp)
              · rename_i p2 v r3 heq3
                split at h
                · rename_i r4 heq4
                  simp only [Option.map_eq_some'] at h
                  obtain ⟨⟨ms2, rm⟩, hm, hvr⟩ := h
                  simp only [Prod.mk.injEq] at hvr
                  obtain ⟨am, ham, hamne⟩ := ihM _ _ _ hm
                  obtain ⟨av, hav, havne⟩ := ihV _ _ _ heq3
                  have hkey := scanStringBody_eq _ key r1 heq
                  obtain ⟨w1, hw1, _, _⟩ := skipWs_decomp r1
                  obtain ⟨w2, hw2, _, _⟩ := skipWs_decomp r2
                  obtain ⟨w3, hw3, _, _⟩ := skipWs_decomp r3
                  obtain ⟨w4, hw4, _, _⟩ := skipWs_decomp r4
                  refine ⟨'"' :: (key ++ ['"'] ++ w1 ++ [':'] ++ w2 ++ av ++
                    w3 ++ [','] ++ w4 ++ am), ?_, by simp⟩
                  rw [← hvr.2, hkey]
                  rw [show r1 = w1 ++ (':' :: r2) from by rw [hw1, heq2]]
                  rw [show r2 = w2 ++ (av ++ r3) from by rw [hw2, hav]]
                  rw [show r3 = w3 ++ (',' :: r4) from by rw [hw3, heq4]]
                  rw [show r4 = w4 ++ (am ++ rm) from by rw [hw4, ham]]
                  simp
                · rename_i r4 heq4
                  simp only [Option.some.injEq, Prod.mk.injEq] at h
                  obtain ⟨av, hav, havne⟩ := ihV _ _ _ heq3
                  have hkey := scanStringBody_eq _ key r1 heq
                  obtain ⟨w1, hw1, _, _⟩ := skipWs_decomp r1
                  obtain ⟨w2, hw2, _, _⟩ := skipWs_decomp r2
                  obtain ⟨w3, hw3, _, _⟩ := skipWs_decomp r3
                  refine ⟨'"' :: (key ++ ['"'] ++ w1 ++ [':'] ++ w2 ++ av ++
                    w3 ++ ['}']), ?_, by simp⟩
                  rw [← h.2, hkey]
                  rw [show r1 = w1 ++ (':' :: r2) from by rw [hw1, heq2]]
                  rw [show r2 = w2 ++ (av ++ r3) from by rw [hw2, hav]]
                  rw [show r3 = w3 ++ ('}' :: r4) from by rw [hw3, heq4]]
                  simp
                · exact absurd h (by simp)
            · exact absurd h (by simp)
        · exact absurd h (by simp)
      · intro s vs rtail h
        rw [parseElems_succ] at h
        split at h
        · exact absurd h (by simp)
        · rename_i p v r1 heq
          split at h
          · rename_i r2 heq2
            simp only [Option.map_eq_some'] at h
            obtain ⟨⟨vs2, rm⟩, hm, hvr⟩ := h
            simp only [Prod.mk.injEq] at hvr
            obtain ⟨ae, hae, haene, halast⟩ := ihE _ _ _ hm
            obtain ⟨av, hav, havne⟩ := ihV _ _ _ heq
            obtain ⟨w1, hw1, _, _⟩ := skipWs_decomp r1
            obtain ⟨w2, hw2, _, _⟩ := skipWs_decomp r2
            refine ⟨av ++ w1 ++ [','] ++ w2 ++ ae, ?_, by simp [haene], ?_⟩
            · rw [← hvr.2, hav]
              rw [show r1 = w1 ++ (',' :: r2) from by rw [hw1, heq2]]
              rw [show r2 = w2 ++ (ae ++ rm) from by rw [hw2, hae]]
              simp
            · intro c hc
              rw [List.append_assoc, List.append_assoc, List.append_assoc,
                getLast?_append_ne _ _ (by simp [haene])] at hc
              rw [getLast?_append_ne _ _ (by simp [haene])] at hc
              rw [getLast?_append_ne _ _ (by simp [haene])] at hc
              rw [getLast?_append_ne _ _ haene] at hc
              exact halast c hc
          · rename_i r2 heq2
            simp only [Option.some.injEq, Prod.mk.injEq] at h
            obtain ⟨av, hav, havne⟩ := ihV _ _ _ heq
            obtain ⟨w1, hw1, _, _⟩ := skipWs_decomp r1
            refine ⟨av ++ w1 ++ [']'], ?_, by simp, ?_⟩
            · rw [← h.2, hav]
              rw [show r1 = w1 ++ (']' :: r2) from by rw [hw1, heq2]]
              simp
            · intro c hc
              rw [List.getLast?_concat] at hc
              simp only [Option.some.injEq] at hc
              rw [← hc]
              rfl
          · exact absurd h (by simp)

lemma scanRun_ws (w : List Char) (hall : ∀ c ∈ w, jsonWs c = true)
    (st : ScanSt) (h1 : st.inString = false) (h2 : st.escapeNext = false) :
    scanRun st w = { st with pos := st.pos + w.length } :=
  scanRun_neutral w (fun c hc => jsonWs_neutral c (hall c hc)) st h1 h2

/-- The mutual scanner-correspondence lemma at depth at least 1: running
the scanner over the text consumed by a parse of a value (or of object
members, or of array elements) starting outside strings at depth `d ≥ 1`
advances the position, leaves strings/escapes off, and:
for a value or array elements, changes nothing else;
for object members (whose consumed text ends with the closing `}`), drops
the depth by one and emits the span of the enclosing object exactly when
the closing brace returns the depth to zero (`d = 1`). -/
lemma scan_parse (fuel : ℕ) :
    (∀ s v rtail, parseValue fuel s = some (v, rtail) →
      ∃ a, s = a ++ rtail ∧
        ∀ st : ScanSt, st.inString = false → st.escapeNext = false →
          1 ≤ st.depth →
            scanRun st a = { st with pos := st.pos + a.length }) ∧
    (∀ s ms rtail, parseMembers fuel s = some (ms, rtail) →
      ∃ a, s = a ++ rtail ∧
        ∀ st : ScanSt, st.inString = false → st.escapeNext = false →
          1 ≤ st.depth →
            scanRun st a = { st with
              depth := st.depth - 1
              pos := st.pos + a.length
              spans := st.spans ++ (if st.depth = 1 then
                [(st.start, st.pos + a.length - 1)] else []) }) ∧
    (∀ s vs rtail, parseElems fuel s = some (vs, rtail) →
      ∃ a, s = a ++ rtail ∧
        ∀ st : ScanSt, st.inString = false → st.escapeNext = false →
          1 ≤ st.depth →
            scanRun st a = { st with pos := st.pos + a.length }) := by
  induction fuel with
  | zero =>
      refine ⟨?_, ?_, ?_⟩ <;> intro s x rtail h
      · rw [parseValue_zero] at h; exact absurd h (by simp)
      · rw [parseMembers_zero] at h; exact absurd h (by simp)
      · rw [parseElems_zero] at h; exact absurd h (by simp)
  | succ f ih =>
      obtain ⟨ihV, ihM, ihE⟩ := ih
      refine ⟨?_, ?_, ?_⟩
      · intro s v rtail h
        rw [parseValue_succ] at h
        split at h
        · rename_i rest0
          simp only [Option.map_eq_some'] at h
          obtain ⟨⟨raw, r1⟩, hsb, hvr⟩ := h
          simp only [Prod.mk.injEq] at hvr
          have hs := scanStringBody_eq _ raw r1 hsb
          refine ⟨'"' :: (raw ++ ['"']), by rw [hs, ← hvr.2]; simp, ?_⟩
          intro st h1 h2 hd
          obtain ⟨i, e, d, s0, p, sp⟩ := st
          simp only at h1 h2
          subst h1
          subst h2
          rw [scanRun_cons, scanStep_quote_open _ rfl rfl,
            scanRun_string _ raw r1 hsb _ rfl rfl]
          dsimp only
          refine ScanSt.ext rfl rfl rfl rfl ?_ rfl
          simp only [List.length_cons, List.length_append, List.length_singleton, List.length_nil]
          omega
        · rename_i rest0
          split at h
          · rename_i r2 heq
            simp only [Option.some.injEq, Prod.mk.injEq] at h
            obtain ⟨w, hw, hall, hhd⟩ := skipWs_decomp rest0
            refine ⟨'{' :: (w ++ ['}']),
              by rw [← h.2, show rest0 = w ++ ('}' :: r2) from by rw [hw, heq]]; simp, ?_⟩
            intro st h1 h2 hd
            obtain ⟨i, e, d, s0, p, sp⟩ := st
            simp only at h1 h2 hd
            subst h1
            subst h2
            rw [scanRun_cons, scanStep_open _ rfl rfl]
            simp only
            rw [if_neg (by omega : ¬ d = 0), scanRun_append,
              scanRun_ws w hall _ rfl rfl, scanRun_cons, scanRun_nil,
              scanStep_close _ rfl rfl]
            dsimp only
            refine ScanSt.ext rfl rfl (by dsimp only; omega) rfl ?_ ?_
            · simp only [List.length_cons, List.length_append,
                List.length_singleton, List.length_nil]
              omega
            · dsimp only
              rw [if_neg (by omega : ¬ d + 1 - 1 = 0)]
          · rename_i hne
            simp only [Option.map_eq_some'] at h
            obtain ⟨⟨ms, rm⟩, hm, hvr⟩ := h
            simp only [Prod.mk.injEq] at hvr
            obtain ⟨am, ham, hrun⟩ := ihM _ _ _ hm
            obtain ⟨w, hw, hall, hhd⟩ := skipWs_decomp rest0
            refine ⟨'{' :: (w ++ am),
              by rw [← hvr.2, show rest0 = w ++ (am ++ rm) from by rw [hw, ham]]; simp, ?_⟩
            intro st h1 h2 hd
            obtain ⟨i, e, d, s0, p, sp⟩ := st
            simp only at h1 h2 hd
            subst h1
            subst h2
            rw [scanRun_cons, scanStep_open _ rfl rfl]
            simp only
            rw [if_neg (by omega : ¬ d = 0), scanRun_append,
              scanRun_ws w hall _ rfl rfl,
              hrun _ rfl rfl (by simp only; omega)]
            dsimp only
            refine ScanSt.ext rfl rfl (by dsimp only; omega) rfl ?_ ?_
            · simp only [List.length_cons, List.length_append]
              omega
            · dsimp only
              rw [if_neg (by omega : ¬ d + 1 = 1)]
              simp
        · rename_i rest0
          split at h
          · rename_i r2 heq
            simp only [Option.some.injEq, Prod.mk.injEq] at h
            obtain ⟨w, hw, hall, hhd⟩ := skipWs_decomp rest0
            refine ⟨'[' :: (w ++ [']']),
              by rw [← h.2, show rest0 = w ++ (']' :: r2) from by rw [hw, heq]]; simp, ?_⟩
            intro st h1 h2 hd
            obtain ⟨i, e, d, s0, p, sp⟩ := st
            simp only at h1 h2 hd
            subst h1
            subst h2
            rw [show ('[' :: (w ++ [']'])) = ('[' :: w) ++ [']'] from by simp,
              scanRun_append, scanRun_neutral ('[' :: w) ?_ _ rfl rfl,
              scanRun_cons, scanRun_nil, scanStep_neutral _ _ rfl rfl
                (by decide) (by decide) (by decide)]
            · dsimp only
              refine ScanSt.ext rfl rfl rfl rfl ?_ rfl
              simp only [List.length_cons, List.length_append,
                List.length_singleton, List.length_nil]
              omega
            · intro c hc
              rcases List.mem_cons.mp hc with rfl | hc
              · exact ⟨by decide, by decide, by decide⟩
              · exact jsonWs_neutral c (hall c hc)
          · rename_i hne
            simp only [Option.map_eq_some'] at h
            obtain ⟨⟨vs, rm⟩, hm, hvr⟩ := h
            simp only [Prod.mk.injEq] at hvr
            obtain ⟨ae, hae, hrun⟩ := ihE _ _ _ hm
            obtain ⟨w, hw, hall, hhd⟩ := skipWs_decomp rest0
            refine ⟨'[' :: (w ++ ae),
              by rw [← hvr.2, show rest0 = w ++ (ae ++ rm) from by rw [hw, hae]]; simp, ?_⟩
            intro st h1 h2 hd
            obtain ⟨i, e, d, s0, p, sp⟩ := st
            simp only at h1 h2 hd
            subst h1
            subst h2
            rw [scanRun_cons, scanStep_neutral _ _ rfl rfl (by decide)
              (by decide) (by decide), scanRun_append,
              scanRun_ws w hall _ rfl rfl, hrun _ rfl rfl (by simp only; omega)]
            dsimp only
            refine ScanSt.ext rfl rfl rfl rfl ?_ rfl
            simp only [List.length_cons, List.length_append]
            omega
        · rename_i rest0
          simp only [Option.some.injEq, Prod.mk.injEq] at h
          refine ⟨['n', 'u', 'l', 'l'], by rw [← h.2]; rfl, ?_⟩
          intro st h1 h2 hd
          rw [scanRun_neutral _ (by decide) _ h1 h2]
        · rename_i rest0
          simp only [Option.some.injEq, Prod.mk.injEq] at h
          refine ⟨['t', 'r', 'u', 'e'], by rw [← h.2]; rfl, ?_⟩
          intro st h1 h2 hd
          rw [scanRun_neutral _ (by decide) _ h1 h2]
        · rename_i rest0
          simp only [Option.some.injEq, Prod.mk.injEq] at h
          refine ⟨['f', 'a', 'l', 's', 'e'], by rw [← h.2]; rfl, ?_⟩
          intro st h1 h2 hd
          rw [scanRun_neutral _ (by decide) _ h1 h2]
        · rename_i c rest0 hn1 hn2 hn3 hn4 hn5 hn6
          split_ifs at h with hnum
          simp only [Option.some.injEq, Prod.mk.injEq] at h
          refine ⟨c :: rest0.takeWhile isNumChar,
            by rw [← h.2, List.cons_append, List.takeWhile_append_dropWhile], ?_⟩
          intro st h1 h2 hd
          rw [scanRun_neutral _ ?_ _ h1 h2]
          intro x hx
          rcases List.mem_cons.mp hx with rfl | hx
          · exact isNumChar_neutral x hnum
          · exact isNumChar_neutral x (List.mem_takeWhile_imp hx)
        · exact absurd h (by simp)
      · intro s ms rtail h
        rw [parseMembers_succ] at h
        split at h
        · rename_i rest0
          split at h
          · exact absurd h (by simp)
          · rename_i p0 key r1 heq
            split at h
            · rename_i r2 heq2
              split at h
              · exact absurd h (by simp)
              · rename_i p2 v r3 heq3
                split at h
                · rename_i r4 heq4
                  simp only [Option.map_eq_some'] at h
                  obtain ⟨⟨ms2, rm⟩, hm, hvr⟩ := h
                  simp only [Prod.mk.injEq] at hvr
                  obtain ⟨am, ham, hrunM⟩ := ihM _ _ _ hm
                  obtain ⟨av, hav, hrunV⟩ := ihV _ _ _ heq3
                  have hkey := scanStringBody_eq _ key r1 heq
                  obtain ⟨w1, hw1, hall1, _⟩ := skipWs_decomp r1
                  obtain ⟨w2, hw2, hall2, _⟩ := skipWs_decomp r2
                  obtain ⟨w3, hw3, hall3, _⟩ := skipWs_decomp r3
                  obtain ⟨w4, hw4, hall4, _⟩ := skipWs_decomp r4
                  refine ⟨'"' :: ((key ++ ['"']) ++ (w1 ++ ([':'] ++ (w2 ++
                    (av ++ (w3 ++ ([','] ++ (w4 ++ am)))))))), ?_, ?_⟩
                  · rw [← hvr.2, hkey]
                    rw [show r1 = w1 ++ (':' :: r2) from by rw [hw1, heq2]]
                    rw [show r2 = w2 ++ (av ++ r3) from by rw [hw2, hav]]
                    rw [show r3 = w3 ++ (',' :: r4) from by rw [hw3, heq4]]
                    rw [show r4 = w4 ++ (am ++ rm) from by rw [hw4, ham]]
                    simp
                  · intro st h1 h2 hd
                    obtain ⟨i, e, d, s0, p, sp⟩ := st
                    simp only at h1 h2 hd
                    subst h1
                    subst h2
                    rw [scanRun_cons, scanStep_quote_open _ rfl rfl,
                      scanRun_append, scanRun_string _ key r1 heq _ rfl rfl,
                      scanRun_append, scanRun_ws w1 hall1 _ rfl rfl,
                      scanRun_append, scanRun_cons, scanRun_nil,
                      scanStep_neutral _ _ rfl rfl (by decide) (by decide)
                        (by decide),
                      scanRun_append, scanRun_ws w2 hall2 _ rfl rfl,
                      scanRun_append, hrunV _ rfl rfl (by simp only; omega),
                      scanRun_append, scanRun_ws w3 hall3 _ rfl rfl,
                      scanRun_append, scanRun_cons, scanRun_nil,
                      scanStep_neutral _ _ rfl rfl (by decide) (by decide)
                        (by decide),
                      scanRun_append, scanRun_ws w4 hall4 _ rfl rfl,
                      hrunM _ rfl rfl (by simp only; omega)]
                    dsimp only
                    refine ScanSt.ext rfl rfl rfl rfl ?_ ?_
                    · simp only [List.length_cons, List.length_append,
                        List.length_singleton, List.length_nil]
                      omega
                    · dsimp only
                      by_cases hd1 : d = 1
                      · rw [if_pos hd1, if_pos hd1]
                        simp only [List.length_cons, List.length_append,
                          List.length_singleton, List.length_nil]
                        congr 3
                        omega
                      · rw [if_neg hd1, if_neg hd1]
                · rename_i r4 heq4
                  simp only [Option.some.injEq, Prod.mk.injEq] at h
                  obtain ⟨av, hav, hrunV⟩ := ihV _ _ _ heq3
                  have hkey := scanStringBody_eq _ key r1 heq
                  obtain ⟨w1, hw1, hall1, _⟩ := skipWs_decomp r1
                  obtain ⟨w2, hw2, hall2, _⟩ := skipWs_decomp r2
                  obtain ⟨w3, hw3, hall3, _⟩ := skipWs_decomp r3
                  refine ⟨'"' :: ((key ++ ['"']) ++ (w1 ++ ([':'] ++ (w2 ++
                    (av ++ (w3 ++ ['}'])))))), ?_, ?_⟩
                  · rw [← h.2, hkey]
                    rw [show r1 = w1 ++ (':' :: r2) from by rw [hw1, heq2]]
                    rw [show r2 = w2 ++ (av ++ r3) from by rw [hw2, hav]]
                    rw [show r3 = w3 ++ ('}' :: r4) from by rw [hw3, heq4]]
                    simp
                  · intro st h1 h2 hd
                    obtain ⟨i, e, d, s0, p, sp⟩ := st
                    simp only at h1 h2 hd
                    subst h1
                    subst h2
                    rw [scanRun_cons, scanStep_quote_open _ rfl rfl,
                      scanRun_append, scanRun_string _ key r1 heq _ rfl rfl,
                      scanRun_append, scanRun_ws w1 hall1 _ rfl rfl,
                      scanRun_append, scanRun_cons, scanRun_nil,
                      scanStep_neutral _ _ rfl rfl (by decide) (by decide)
                        (by decide),
                      scanRun_append, scanRun_ws w2 hall2 _ rfl rfl,
                      scanRun_append, hrunV _ rfl rfl (by simp only; omega),
                      scanRun_append, scanRun_ws w3 hall3 _ rfl rfl,
                      scanRun_cons, scanRun_nil, scanStep_close _ rfl rfl]
                    dsimp only
                    refine ScanSt.ext rfl rfl rfl rfl ?_ ?_
                    · simp only [List.length_cons, List.length_append,
                        List.length_singleton, List.length_nil]
                      omega
                    · dsimp only
                      by_cases hd1 : d = 1
                      · rw [if_pos (by omega : d - 1 = 0), if_pos hd1]
                        simp only [List.length_cons, List.length_append,
                          List.length_singleton, List.length_nil]
                        congr 3
                        omega
                      · rw [if_neg (by omega : ¬ d - 1 = 0), if_neg hd1]
                        simp
                · exact absurd h (by simp)
            · exact absurd h (by simp)
        · exact absurd h (by simp)
      · intro s vs rtail h
        rw [parseElems_succ] at h
        split at h
        · exact absurd h (by simp)
        · rename_i p0 v r1 heq
          split at h
          · rename_i r2 heq2
            simp only [Option.map_eq_some'] at h
            obtain ⟨⟨vs2, rm⟩, hm, hvr⟩ := h
            simp only [Prod.mk.injEq] at hvr
            obtain ⟨ae, hae, hrunE⟩ := ihE _ _ _ hm
            obtain ⟨av, hav, hrunV⟩ := ihV _ _ _ heq
            obtain ⟨w1, hw1, hall1, _⟩ := skipWs_decomp r1
            obtain ⟨w2, hw2, hall2, _⟩ := skipWs_decomp r2
            refine ⟨av ++ (w1 ++ ([','] ++ (w2 ++ ae))), ?_, ?_⟩
            · rw [← hvr.2, hav]
              rw [show r1 = w1 ++ (',' :: r2) from by rw [hw1, heq2]]
              rw [show r2 = w2 ++ (ae ++ rm) from by rw [hw2, hae]]
              simp
            · intro st h1 h2 hd
              obtain ⟨i, e, d, s0, p, sp⟩ := st
              simp only at h1 h2 hd
              subst h1
              subst h2
              rw [scanRun_append, hrunV _ rfl rfl (by simp only; omega),
                scanRun_append, scanRun_ws w1 hall1 _ rfl rfl,
                scanRun_append, scanRun_cons, scanRun_nil,
                scanStep_neutral _ _ rfl rfl (by decide) (by decide)
                  (by decide),
                scanRun_append, scanRun_ws w2 hall2 _ rfl rfl,
                hrunE _ rfl rfl (by simp only; omega)]
              dsimp only
              refine ScanSt.ext rfl rfl rfl rfl ?_ rfl
              simp only [List.length_append, List.length_singleton, List.length_cons, List.length_nil]
              omega
          · rename_i r2 heq2
            simp only [Option.some.injEq, Prod.mk.injEq] at h
            obtain ⟨av, hav, hrunV⟩ := ihV _ _ _ heq
            obtain ⟨w1, hw1, hall1, _⟩ := skipWs_decomp r1
            refine ⟨av ++ (w1 ++ [']']), ?_, ?_⟩
            · rw [← h.2, hav]
              rw [show r1 = w1 ++ (']' :: r2) from by rw [hw1, heq2]]
              simp
            · intro st h1 h2 hd
              obtain ⟨i, e, d, s0, p, sp⟩ := st
              simp only at h1 h2 hd
              subst h1
              subst h2
              rw [scanRun_append, hrunV _ rfl rfl (by simp only; omega),
                scanRun_append, scanRun_ws w1 hall1 _ rfl rfl,
                scanRun_cons, scanRun_nil, scanStep_neutral _ _ rfl rfl
                  (by decide) (by decide) (by decide)]
              dsimp only
              refine ScanSt.ext rfl rfl rfl rfl ?_ rfl
              simp only [List.length_append, List.length_singleton, List.length_cons, List.length_nil]
              omega
          · exact absurd h (by simp)

/-- Scanner correspondence for a top-level element object (depth 0): the
scanner records exactly the span of the object text. -/
lemma scan_parse_obj0 (fuel : ℕ) (s : List Char) (v : Json)
    (rtail : List Char) (h : parseValue fuel s = some (v, rtail))
    (hobj : v.isObj = true) :
    ∃ a, s = a ++ rtail ∧ a ≠ [] ∧
      ∀ st : ScanSt, st.inString = false → st.escapeNext = false →
        st.depth = 0 →
          scanRun st a = { st with
            start := st.pos
            pos := st.pos + a.length
            spans := st.spans ++ [(st.pos, st.pos + a.length - 1)] } := by
  cases fuel with
  | zero => rw [parseValue_zero] at h; exact absurd h (by simp)
  | succ f =>
      rw [parseValue_succ] at h
      split at h
      · simp only [Option.map_eq_some'] at h
        obtain ⟨⟨raw, r1⟩, hsb, hvr⟩ := h
        simp only [Prod.mk.injEq] at hvr
        rw [← hvr.1] at hobj
        exact absurd hobj (by simp [Json.isObj])
      · rename_i rest0
        split at h
        · rename_i r2 heq
          simp only [Option.some.injEq, Prod.mk.injEq] at h
          obtain ⟨w, hw, hall, hhd⟩ := skipWs_decomp rest0
          refine ⟨'{' :: (w ++ ['}']),
            by rw [← h.2, show rest0 = w ++ ('}' :: r2) from by rw [hw, heq]]; simp,
            by simp, ?_⟩
          intro st h1 h2 hd
          obtain ⟨i, e, d, s0, p, sp⟩ := st
          simp only at h1 h2 hd
          subst h1
          subst h2
          subst hd
          rw [scanRun_cons, scanStep_open _ rfl rfl]
          dsimp only
          rw [if_pos rfl, scanRun_append, scanRun_ws w hall _ rfl rfl,
            scanRun_cons, scanRun_nil, scanStep_close _ rfl rfl]
          dsimp only
          refine ScanSt.ext rfl rfl (by dsimp only; omega) rfl ?_ ?_
          · dsimp only
            simp only [List.length_cons, List.length_append,
              List.length_singleton, List.length_nil]
            omega
          · dsimp only
            rw [if_pos (by omega : (0 : ℤ) + 1 - 1 = 0)]
            simp only [List.length_cons, List.length_append,
              List.length_singleton, List.length_nil]
            congr 3
            omega
        · rename_i hne
          simp only [Option.map_eq_some'] at h
          obtain ⟨⟨ms, rm⟩, hm, hvr⟩ := h
          simp only [Prod.mk.injEq] at hvr
          obtain ⟨am, ham, hrunM⟩ := (scan_parse f).2.1 _ _ _ hm
          obtain ⟨w, hw, hall, hhd⟩ := skipWs_decomp rest0
          refine ⟨'{' :: (w ++ am),
            by rw [← hvr.2, show rest0 = w ++ (am ++ rm) from by rw [hw, ham]]; simp,
            by simp, ?_⟩
          intro st h1 h2 hd
          obtain ⟨i, e, d, s0, p, sp⟩ := st
          simp only at h1 h2 hd
          subst h1
          subst h2
          subst hd
          rw [scanRun_cons, scanStep_open _ rfl rfl]
          dsimp only
          rw [if_pos rfl, scanRun_append, scanRun_ws w hall _ rfl rfl,
            hrunM _ rfl rfl (by dsimp only; omega)]
          dsimp only
          refine ScanSt.ext rfl rfl (by dsimp only; omega) rfl ?_ ?_
          · dsimp only
            simp only [List.length_cons, List.length_append, List.length_nil]
            omega
          · dsimp only
            rw [if_pos (by omega : (0 : ℤ) + 1 = 1)]
            simp only [List.length_cons, List.length_append, List.length_nil]
            congr 3
            omega
      · rename_i rest0
        split at h
        · simp only [Option.some.injEq, Prod.mk.injEq] at h
          rw [← h.1] at hobj
          exact absurd hobj (by simp [Json.isObj])
        · simp only [Option.map_eq_some'] at h
          obtain ⟨⟨vs, rm⟩, hm, hvr⟩ := h
          simp only [Prod.mk.injEq] at hvr
          rw [← hvr.1] at hobj
          exact absurd hobj (by simp [Json.isObj])
      · simp only [Option.some.injEq, Prod.mk.injEq] at h
        rw [← h.1] at hobj
        exact absurd hobj (by simp [Json.isObj])
      · simp only [Option.some.injEq, Prod.mk.injEq] at h
        rw [← h.1] at hobj
        exact absurd hobj (by simp [Json.isObj])
      · simp only [Option.some.injEq, Prod.mk.injEq] at h
        rw [← h.1] at hobj
        exact absurd hobj (by simp [Json.isObj])
      · split_ifs at h with hnum
        simp only [Option.some.injEq, Prod.mk.injEq] at h
        rw [← h.1] at hobj
        exact absurd hobj (by simp [Json.isObj])
      · exact absurd h (by simp)

/-- A list whose head (if any) cannot continue a numeric lexeme; the
condition under which a standalone reparse of a numeric value stops at the
same place. -/
def noNumHead (l : List Char) : Prop :=
  ∀ c, l.head? = some c → isNumChar c = false

lemma noNumHead_nil : noNumHead [] := by
  intro c hc
  simp at hc

lemma dropWhile_head_stop {p : Char → Bool} {l : List Char}
    (h : ∀ c, l.head? = some c → p c = false) : l.dropWhile p = l := by
  cases l with
  | nil => rfl
  | cons c t =>
      rw [List.dropWhile_cons, if_neg (by rw [h c rfl]; simp)]

lemma takeWhile_head_stop {p : Char → Bool} {l : List Char}
    (h : ∀ c, l.head? = some c → p c = false) : l.takeWhile p = [] := by
  cases l with
  | nil => rfl
  | cons c t =>
      rw [List.takeWhile_cons, if_neg (by rw [h c rfl]; simp)]

lemma takeWhile_append_all {p : Char → Bool} {w l : List Char}
    (hw : ∀ c ∈ w, p c = true) (hl : ∀ c, l.head? = some c → p c = false) :
    (w ++ l).takeWhile p = w := by
  induction w with
  | nil => exact takeWhile_head_stop hl
  | cons c t ih =>
      rw [List.cons_append, List.takeWhile_cons,
        if_pos (hw c (List.mem_cons_self _ _))]
      rw [ih (fun d hd => hw d (List.mem_cons_of_mem _ hd))]

lemma dropWhile_append_stop {p : Char → Bool} {w l : List Char}
    (hw : ∀ c ∈ w, p c = true) (hl : ∀ c, l.head? = some c → p c = false) :
    (w ++ l).dropWhile p = l := by
  rw [dropWhile_append_all hw]
  exact dropWhile_head_stop hl

lemma skipWs_append_stop {w l : List Char} (hw : ∀ c ∈ w, jsonWs c = true)
    (hl : ∀ c, l.head? = some c → jsonWs c = false) : skipWs (w ++ l) = l :=
  dropWhile_append_stop hw hl

lemma noNumHead_ws_cons (w : List Char) (d : Char) (tail : List Char)
    (hw : ∀ c ∈ w, jsonWs c = true) (hd : isNumChar d = false) :
    noNumHead (w ++ d :: tail) := by
  intro c hc
  cases w with
  | nil =>
      simp only [List.nil_append, List.head?_cons, Option.some.injEq] at hc
      rw [← hc]
      exact hd
  | cons x t =>
      simp only [List.cons_append, List.head?_cons, Option.some.injEq] at hc
      rw [← hc]
      exact jsonWs_not_num x (hw x (List.mem_cons_self _ _))

lemma pyIsSpace_cases (c : Char) (h : pyIsSpace c = true) :
    c = ' ' ∨ c = '\t' ∨ c = '\n' ∨ c = '\r' ∨ c = '\x0b' ∨ c = '\x0c' := by
  simp only [pyIsSpace, Bool.or_eq_true, beq_iff_eq] at h
  tauto

lemma isNumChar_facts (c : Char) (h : isNumChar c = true) :
    c ≠ '"' ∧ c ≠ '{' ∧ c ≠ '[' ∧ c ≠ 'n' ∧ c ≠ 't' ∧ c ≠ 'f' ∧
      c ≠ ']' ∧ c ≠ '}' ∧ jsonWs c = false ∧ pyIsSpace c = false := by
  refine ⟨?_, ?_, ?_, ?_, ?_, ?_, ?_, ?_, ?_, ?_⟩
  · rintro rfl; simp [isNumChar] at h
  · rintro rfl; simp [isNumChar] at h
  · rintro rfl; simp [isNumChar] at h
  · rintro rfl; simp [isNumChar] at h
  · rintro rfl; simp [isNumChar] at h
  · rintro rfl; simp [isNumChar] at h
  · rintro rfl; simp [isNumChar] at h
  · rintro rfl; simp [isNumChar] at h
  · cases hj : jsonWs c with
    | false => rfl
    | true =>
        exfalso
        rw [jsonWs_not_num c hj] at h
        exact Bool.false_ne_true h
  · cases hs : pyIsSpace c with
    | false => rfl
    | true =>
        exfalso
        rcases pyIsSpace_cases c hs with rfl | rfl | rfl | rfl | rfl | rfl <;>
          simp [isNumChar] at h

lemma parseValue_quote (f : ℕ) (rest : List Char) :
    parseValue (f + 1) ('"' :: rest) =
      (scanStringBody rest).map (fun p => (Json.str p.1, p.2)) := rfl

lemma parseValue_lbrace (f : ℕ) (rest : List Char) :
    parseValue (f + 1) ('{' :: rest) =
      match skipWs rest with
      | '}' :: r2 => some (Json.obj [], r2)
      | r1 => (parseMembers f r1).map (fun p => (Json.obj p.1, p.2)) := rfl

lemma parseValue_lbrack (f : ℕ) (rest : List Char) :
    parseValue (f + 1) ('[' :: rest) =
      match skipWs rest with
      | ']' :: r2 => some (Json.arr [], r2)
      | r1 => (parseElems f r1).map (fun p => (Json.arr p.1, p.2)) := rfl

lemma parseValue_null (f : ℕ) (rest : List Char) :
    parseValue (f + 1) ('n' :: 'u' :: 'l' :: 'l' :: rest) =
      some (Json.null, rest) := rfl

lemma parseValue_true (f : ℕ) (rest : List Char) :
    parseValue (f + 1) ('t' :: 'r' :: 'u' :: 'e' :: rest) =
      some (Json.bool true, rest) := rfl

lemma parseValue_false (f : ℕ) (rest : List Char) :
    parseValue (f + 1) ('f' :: 'a' :: 'l' :: 's' :: 'e' :: rest) =
      some (Json.bool false, rest) := rfl

lemma parseMembers_quote (f : ℕ) (rest : List Char) :
    parseMembers (f + 1) ('"' :: rest) =
      match scanStringBody rest with
      | none => none
      | some (key, r1) =>
          match skipWs r1 with
          | ':' :: r2 =>
              match parseValue f (skipWs r2) with
              | none => none
              | some (v, r3) =>
                  match skipWs r3 with
                  | ',' :: r4 =>
                      (parseMembers f (skipWs r4)).map
                        (fun p => ((key, v) :: p.1, p.2))
                  | '}' :: r4 => some ([(key, v)], r4)
                  | _ => none
          | _ => none := rfl

lemma parseValue_numhead (f : ℕ) (c : Char) (rest : List Char)
    (hnum : isNumChar c = true) :
    parseValue (f + 1) (c :: rest) =
      some (Json.num (c :: rest.takeWhile isNumChar),
        rest.dropWhile isNumChar) := by
  obtain ⟨hq, hbr, hbk, hn, ht, hf, _, _, _, _⟩ := isNumChar_facts c hnum
  rw [parseValue_succ]
  split
  · rename_i heq
    rw [List.cons.injEq] at heq
    exact absurd heq.1 hq
  · rename_i heq
    rw [List.cons.injEq] at heq
    exact absurd heq.1 hbr
  · rename_i heq
    rw [List.cons.injEq] at heq
    exact absurd heq.1 hbk
  · rename_i heq
    rw [List.cons.injEq] at heq
    exact absurd heq.1 hn
  · rename_i heq
    rw [List.cons.injEq] at heq
    exact absurd heq.1 ht
  · rename_i heq
    rw [List.cons.injEq] at heq
    exact absurd heq.1 hf
  · rename_i heq
    rw [List.cons.injEq] at heq
    obtain ⟨hc, hr⟩ := heq
    subst hc
    subst hr
    rw [if_pos hnum]
  · rename_i heq
    exact absurd heq (by simp)

lemma head?_append_ne (x y : List Char) (h : x ≠ []) :
    (x ++ y).head? = x.head? := by
  cases x with
  | nil => exact absurd rfl h
  | cons c t => rfl

lemma mem_of_getLast?_eq {l : List Char} {a : Char}
    (h : l.getLast? = some a) : a ∈ l := by
  cases l with
  | nil => simp at h
  | cons x t =>
      rw [List.getLast?_eq_getLast _ (by simp)] at h
      simp only [Option.some.injEq] at h
      rw [← h]
      exact List.getLast_mem _

/-- The reconstruction lemma: a successful parse consumes a non-empty,
self-delimiting prefix `a` that parses again, with the same result, when
followed by any suffix whose head cannot extend a numeric lexeme, at any
fuel of at least `2*|a| + 1`.  This is what justifies re-running
`json.loads` on a scanner-delimited span of a larger document. -/
lemma parse_reconstruct (fuel : ℕ) :
    (∀ s v rtail, parseValue fuel s = some (v, rtail) →
      ∃ a, s = a ++ rtail ∧ a ≠ [] ∧
        (∀ c, a.head? = some c → jsonWs c = false ∧ c ≠ ']' ∧ c ≠ '}') ∧
        (∀ c, a.getLast? = some c → pyIsSpace c = false) ∧
        ∀ b2, noNumHead b2 → ∀ g, 2 * a.length + 1 ≤ g →
          parseValue g (a ++ b2) = some (v, b2)) ∧
    (∀ s ms rtail, parseMembers fuel s = some (ms, rtail) →
      ∃ a, s = a ++ rtail ∧ a ≠ [] ∧ a.head? = some '"' ∧
        (∀ c, a.getLast? = some c → pyIsSpace c = false) ∧
        ∀ b2, noNumHead b2 → ∀ g, 2 * a.length + 1 ≤ g →
          parseMembers g (a ++ b2) = some (ms, b2)) ∧
    (∀ s vs rtail, parseElems fuel s = some (vs, rtail) →
      ∃ a, s = a ++ rtail ∧ a ≠ [] ∧
        (∀ c, a.head? = some c → jsonWs c = false ∧ c ≠ ']' ∧ c ≠ '}') ∧
        (∀ c, a.getLast? = some c → pyIsSpace c = false) ∧
        ∀ b2, noNumHead b2 → ∀ g, 2 * a.length + 1 ≤ g →
          parseElems g (a ++ b2) = some (vs, b2)) := by
  induction fuel with
  | zero =>
      refine ⟨?_, ?_, ?_⟩ <;> intro s x rtail h
      · rw [parseValue_zero] at h; exact absurd h (by simp)
      · rw [parseMembers_zero] at h; exact absurd h (by simp)
      · rw [parseElems_zero] at h; exact absurd h (by simp)
  | succ f ih =>
      obtain ⟨ihV, ihM, ihE⟩ := ih
      refine ⟨?_, ?_, ?_⟩
      · intro s v rtail h
        rw [parseValue_succ] at h
        split at h
        · rename_i rest0
          simp only [Option.map_eq_some'] at h
          obtain ⟨⟨raw, r1⟩, hsb, hvr⟩ := h
          simp only [Prod.mk.injEq] at hvr
          refine ⟨'"' :: (raw ++ ['"']),
            by rw [scanStringBody_eq _ raw r1 hsb, ← hvr.2]; simp, by simp,
            ?_, ?_, ?_⟩
          · intro c hc
            simp only [List.head?_cons, Option.some.injEq] at hc
            rw [← hc]
            exact ⟨by decide, by decide, by decide⟩
          · intro c hc
            rw [show '"' :: (raw ++ ['"']) = ('"' :: raw) ++ ['"'] from by simp,
              List.getLast?_concat] at hc
            simp only [Option.some.injEq] at hc
            rw [← hc]
            rfl
          · intro b2 hb2 g hg
            obtain ⟨g2, rfl⟩ : ∃ g2, g = g2 + 1 := ⟨g - 1, by omega⟩
            rw [List.cons_append, parseValue_quote]
            rw [show (raw ++ ['"']) ++ b2 = raw ++ '"' :: b2 from by simp]
            rw [scanStringBody_reparse _ raw r1 hsb b2]
            simp only [Option.map_some']
            rw [hvr.1]
        · rename_i rest0
          split at h
          · rename_i r2 heq
            simp only [Option.some.injEq, Prod.mk.injEq] at h
            obtain ⟨w, hw, hall, hhd⟩ := skipWs_decomp rest0
            refine ⟨'{' :: (w ++ ['}']),
              by rw [← h.2, show rest0 = w ++ ('}' :: r2) from by rw [hw, heq]]; simp,
              by simp, ?_, ?_, ?_⟩
            · intro c hc
              simp only [List.head?_cons, Option.some.injEq] at hc
              rw [← hc]
              exact ⟨by decide, by decide, by decide⟩
            · intro c hc
              rw [show '{' :: (w ++ ['}']) = ('{' :: w) ++ ['}'] from by simp,
                List.getLast?_concat] at hc
              simp only [Option.some.injEq] at hc
              rw [← hc]
              rfl
            · intro b2 hb2 g hg
              obtain ⟨g2, rfl⟩ : ∃ g2, g = g2 + 1 := ⟨g - 1, by omega⟩
              rw [List.cons_append, parseValue_lbrace]
              rw [show (w ++ ['}']) ++ b2 = w ++ ('}' :: b2) from by simp]
              rw [skipWs_append_stop hall (by
                intro c hc
                simp only [List.head?_cons, Option.some.injEq] at hc
                rw [← hc]
                rfl)]
              show some (Json.obj [], b2) = some (v, b2)
              rw [h.1]
          · rename_i hne
            simp only [Option.map_eq_some'] at h
            obtain ⟨⟨ms, rm⟩, hm, hvr⟩ := h
            simp only [Prod.mk.injEq] at hvr
            obtain ⟨am, ham, hamne, hamhead, hamlast, hreconM⟩ := ihM _ _ _ hm
            obtain ⟨w, hw, hall, hhd⟩ := skipWs_decomp rest0
            obtain ⟨am1, rfl⟩ : ∃ am1, am = '"' :: am1 := by
              cases am with
              | nil => exact absurd rfl hamne
              | cons c t =>
                  simp only [List.head?_cons, Option.some.injEq] at hamhead
                  exact ⟨t, by rw [hamhead]⟩
            refine ⟨'{' :: (w ++ ('"' :: am1)),
              by rw [← hvr.2, show rest0 = w ++ (('"' :: am1) ++ rm) from by rw [hw, ham]]; simp,
              by simp, ?_, ?_, ?_⟩
            · intro c hc
              simp only [List.head?_cons, Option.some.injEq] at hc
              rw [← hc]
              exact ⟨by decide, by decide, by decide⟩
            · intro c hc
              rw [show '{' :: (w ++ ('"' :: am1)) = ('{' :: w) ++ ('"' :: am1)
                  from by simp,
                getLast?_append_ne _ _ (by simp)] at hc
              exact hamlast c hc
            · intro b2 hb2 g hg
              obtain ⟨g2, rfl⟩ : ∃ g2, g = g2 + 1 := ⟨g - 1, by omega⟩
              rw [List.cons_append, parseValue_lbrace]
              rw [show (w ++ ('"' :: am1)) ++ b2 = w ++ ('"' :: (am1 ++ b2))
                from by simp]
              rw [skipWs_append_stop hall (by
                intro c hc
                simp only [List.head?_cons, Option.some.injEq] at hc
                rw [← hc]
                rfl)]
              have hr := hreconM b2 hb2 g2 (by
                simp only [List.length_cons, List.length_append] at hg ⊢
                omega)
              rw [List.cons_append] at hr
              show (parseMembers g2 ('"' :: (am1 ++ b2))).map
                (fun p => (Json.obj p.1, p.2)) = some (v, b2)
              rw [hr]
              simp only [Option.map_some']
              rw [hvr.1]
        · rename_i rest0
          split at h
          · rename_i r2 heq
            simp only [Option.some.injEq, Prod.mk.injEq] at h
            obtain ⟨w, hw, hall, hhd⟩ := skipWs_decomp rest0
            refine ⟨'[' :: (w ++ [']']),
              by rw [← h.2, show rest0 = w ++ (']' :: r2) from by rw [hw, heq]]; simp,
              by simp, ?_, ?_, ?_⟩
            · intro c hc
              simp only [List.head?_cons, Option.some.injEq] at hc
              rw [← hc]
              exact ⟨by decide, by decide, by decide⟩
            · intro c hc
              rw [show '[' :: (w ++ [']']) = ('[' :: w) ++ [']'] from by simp,
                List.getLast?_concat] at hc
              simp only [Option.some.injEq] at hc
              rw [← hc]
              rfl
            · intro b2 hb2 g hg
              obtain ⟨g2, rfl⟩ : ∃ g2, g = g2 + 1 := ⟨g - 1, by omega⟩
              rw [List.cons_append, parseValue_lbrack]
              rw [show (w ++ [']']) ++ b2 = w ++ (']' :: b2) from by simp]
              rw [skipWs_append_stop hall (by
                intro c hc
                simp only [List.head?_cons, Option.some.injEq] at hc
                rw [← hc]
                rfl)]
              show some (Json.arr [], b2) = some (v, b2)
              rw [h.1]
          · rename_i hne
            simp only [Option.map_eq_some'] at h
            obtain ⟨⟨vs, rm⟩, hm, hvr⟩ := h
            simp only [Prod.mk.injEq] at hvr
            obtain ⟨ae, hae, haene, haehead, haelast, hreconE⟩ := ihE _ _ _ hm
            obtain ⟨w, hw, hall, hhd⟩ := skipWs_decomp rest0
            obtain ⟨c0, ae1, rfl⟩ : ∃ c0 ae1, ae = c0 :: ae1 := by
              cases ae with
              | nil => exact absurd rfl haene
              | cons c t => exact ⟨c, t, rfl⟩
            have hc0 := haehead c0 rfl
            refine ⟨'[' :: (w ++ (c0 :: ae1)),
              by rw [← hvr.2, show rest0 = w ++ ((c0 :: ae1) ++ rm) from by rw [hw, hae]]; simp,
              by simp, ?_, ?_, ?_⟩
            · intro c hc
              simp only [List.head?_cons, Option.some.injEq] at hc
              rw [← hc]
              exact ⟨by decide, by decide, by decide⟩
            · intro c hc
              rw [show '[' :: (w ++ (c0 :: ae1)) = ('[' :: w) ++ (c0 :: ae1)
                  from by simp,
                getLast?_append_ne _ _ (by simp)] at hc
              exact haelast c hc
            · intro b2 hb2 g hg
              obtain ⟨g2, rfl⟩ : ∃ g2, g = g2 + 1 := ⟨g - 1, by omega⟩
              rw [List.cons_append, parseValue_lbrack]
              rw [show (w ++ (c0 :: ae1)) ++ b2 = w ++ (c0 :: (ae1 ++ b2))
                from by simp]
              rw [skipWs_append_stop hall (by
                intro c hc
                simp only [List.head?_cons, Option.some.injEq] at hc
                rw [← hc]
                exact hc0.1)]
              have hr := hreconE b2 hb2 g2 (by
                simp only [List.length_cons, List.length_append] at hg ⊢
                omega)
              rw [List.cons_append] at hr
              split
              · rename_i r3 heq3
                rw [List.cons.injEq] at heq3
                exact absurd heq3.1 hc0.2.1
              · rw [hr]
                simp only [Option.map_some']
                rw [hvr.1]
        · rename_i rest0
          simp only [Option.some.injEq, Prod.mk.injEq] at h
          refine ⟨['n', 'u', 'l', 'l'], by rw [← h.2]; rfl, by simp, ?_, ?_, ?_⟩
          · intro c hc
            simp only [List.head?_cons, Option.some.injEq] at hc
            rw [← hc]
            exact ⟨by decide, by decide, by decide⟩
          · intro c hc
            rw [show (['n', 'u', 'l', 'l'] : List Char).getLast? = some 'l'
              from rfl] at hc
            simp only [Option.some.injEq] at hc
            rw [← hc]
            rfl
          · intro b2 hb2 g hg
            obtain ⟨g2, rfl⟩ : ∃ g2, g = g2 + 1 := ⟨g - 1, by omega⟩
            rw [show (['n', 'u', 'l', 'l'] : List Char) ++ b2 =
              'n' :: 'u' :: 'l' :: 'l' :: b2 from rfl, parseValue_null]
            rw [h.1]
        · rename_i rest0
          simp only [Option.some.injEq, Prod.mk.injEq] at h
          refine ⟨['t', 'r', 'u', 'e'], by rw [← h.2]; rfl, by simp, ?_, ?_, ?_⟩
          · intro c hc
            simp only [List.head?_cons, Option.some.injEq] at hc
            rw [← hc]
            exact ⟨by decide, by decide, by decide⟩
          · intro c hc
            rw [show (['t', 'r', 'u', 'e'] : List Char).getLast? = some 'e'
              from rfl] at hc
            simp only [Option.some.injEq] at hc
            rw [← hc]
            rfl
          · intro b2 hb2 g hg
            obtain ⟨g2, rfl⟩ : ∃ g2, g = g2 + 1 := ⟨g - 1, by omega⟩
            rw [show (['t', 'r', 'u', 'e'] : List Char) ++ b2 =
              't' :: 'r' :: 'u' :: 'e' :: b2 from rfl, parseValue_true]
            rw [h.1]
        · rename_i rest0
          simp only [Option.some.injEq, Prod.mk.injEq] at h
          refine ⟨['f', 'a', 'l', 's', 'e'], by rw [← h.2]; rfl, by simp,
            ?_, ?_, ?_⟩
          · intro c hc
            simp only [List.head?_cons, Option.some.injEq] at hc
            rw [← hc]
            exact ⟨by decide, by decide, by decide⟩
          · intro c hc
            rw [show (['f', 'a', 'l', 's', 'e'] : List Char).getLast? = some 'e'
              from rfl] at hc
            simp only [Option.some.injEq] at hc
            rw [← hc]
            rfl
          · intro b2 hb2 g hg
            obtain ⟨g2, rfl⟩ : ∃ g2, g = g2 + 1 := ⟨g - 1, by omega⟩
            rw [show (['f', 'a', 'l', 's', 'e'] : List Char) ++ b2 =
              'f' :: 'a' :: 'l' :: 's' :: 'e' :: b2 from rfl, parseValue_false]
            rw [h.1]
        · rename_i c rest0 hn1 hn2 hn3 hn4 hn5 hn6
          split_ifs at h with hnum
          simp only [Option.some.injEq, Prod.mk.injEq] at h
          have hfacts := isNumChar_facts c hnum
          refine ⟨c :: rest0.takeWhile isNumChar,
            by rw [← h.2, List.cons_append, List.takeWhile_append_dropWhile],
            by simp, ?_, ?_, ?_⟩
          · intro d hd
            simp only [List.head?_cons, Option.some.injEq] at hd
            rw [← hd]
            exact ⟨hfacts.2.2.2.2.2.2.2.2.1, hfacts.2.2.2.2.2.2.1,
              hfacts.2.2.2.2.2.2.2.1⟩
          · intro d hd
            have hmem := mem_of_getLast?_eq hd
            rcases List.mem_cons.mp hmem with rfl | hmem
            · exact hfacts.2.2.2.2.2.2.2.2.2
            · exact (isNumChar_facts d
                (List.mem_takeWhile_imp hmem)).2.2.2.2.2.2.2.2.2
          · intro b2 hb2 g hg
            obtain ⟨g2, rfl⟩ : ∃ g2, g = g2 + 1 := ⟨g - 1, by omega⟩
            rw [List.cons_append, parseValue_numhead g2 c _ hnum]
            rw [takeWhile_append_all (fun d hd => List.mem_takeWhile_imp hd)
              hb2]
            rw [dropWhile_append_stop (fun d hd => List.mem_takeWhile_imp hd)
              hb2]
            rw [h.1]
        · exact absurd h (by simp)
      · intro s ms rtail h
        rw [parseMembers_succ] at h
        split at h
        · rename_i rest0
          split at h
          · exact absurd h (by simp)
          · rename_i p0 key r1 heq
            split at h
            · rename_i r2 heq2
              split at h
              · exact absurd h (by simp)
              · rename_i p2 v r3 heq3
                obtain ⟨av, hav, havne, havhead, havlast, hreconV⟩ :=
                  ihV _ _ _ heq3
                have hkey := scanStringBody_eq _ key r1 heq
                obtain ⟨w1, hw1, hall1, _⟩ := skipWs_decomp r1
                obtain ⟨w2, hw2, hall2, _⟩ := skipWs_decomp r2
                obtain ⟨w3, hw3, hall3, _⟩ := skipWs_decomp r3
                obtain ⟨c0, av1, rfl⟩ : ∃ c0 av1, av = c0 :: av1 := by
                  cases av with
                  | nil => exact absurd rfl havne
                  | cons cx t => exact ⟨cx, t, rfl⟩
                have hc0 := havhead c0 rfl
                split at h
                · rename_i r4 heq4
                  simp only [Option.map_eq_some'] at h
                  obtain ⟨⟨ms2, rm⟩, hm, hvr⟩ := h
                  simp only [Prod.mk.injEq] at hvr
                  obtain ⟨am, ham, hamne, hamhead, hamlast, hreconM⟩ :=
                    ihM _ _ _ hm
                  obtain ⟨w4, hw4, hall4, _⟩ := skipWs_decomp r4
                  obtain ⟨am1, rfl⟩ : ∃ am1, am = '"' :: am1 := by
                    cases am with
                    | nil => exact absurd rfl hamne
                    | cons cx t =>
                        simp only [List.head?_cons, Option.some.injEq]
                          at hamhead
                        exact ⟨t, by rw [hamhead]⟩
                  refine ⟨'"' :: (key ++ ('"' :: (w1 ++ (':' :: (w2 ++
                    ((c0 :: av1) ++ (w3 ++ (',' :: (w4 ++
                    ('"' :: am1)))))))))), ?_, by simp, rfl, ?_, ?_⟩
                  · rw [← hvr.2, hkey]
                    rw [show r1 = w1 ++ (':' :: r2) from by rw [hw1, heq2]]
                    rw [show r2 = w2 ++ ((c0 :: av1) ++ r3) from by
                      rw [hw2, hav]]
                    rw [show r3 = w3 ++ (',' :: r4) from by rw [hw3, heq4]]
                    rw [show r4 = w4 ++ (('"' :: am1) ++ rm) from by
                      rw [hw4, ham]]
                    simp
                  · intro d hd
                    rw [show '"' :: (key ++ ('"' :: (w1 ++ (':' :: (w2 ++
                        ((c0 :: av1) ++ (w3 ++ (',' :: (w4 ++
                        ('"' :: am1)))))))))) =
                      ('"' :: (key ++ ('"' :: (w1 ++ (':' :: (w2 ++
                        ((c0 :: av1) ++ (w3 ++ (',' :: w4))))))))) ++
                        ('"' :: am1) from by simp,
                      getLast?_append_ne _ _ (by simp)] at hd
                    exact hamlast d hd
                  · intro b2 hb2 g hg
                    obtain ⟨g2, rfl⟩ : ∃ g2, g = g2 + 1 := ⟨g - 1, by omega⟩
                    rw [List.cons_append, parseMembers_quote]
                    rw [show (key ++ ('"' :: (w1 ++ (':' :: (w2 ++
                      ((c0 :: av1) ++ (w3 ++ (',' :: (w4 ++
                      ('"' :: am1)))))))))) ++ b2 =
                      key ++ '"' :: (w1 ++ (':' :: (w2 ++ ((c0 :: av1) ++
                      (w3 ++ (',' :: (w4 ++ ('"' :: (am1 ++ b2))))))))) from
                      by simp]
                    rw [scanStringBody_reparse _ key r1 heq]
                    dsimp only
                    rw [skipWs_append_stop hall1 (by
                      intro d hd
                      simp only [List.head?_cons, Option.some.injEq] at hd
                      rw [← hd]
                      rfl)]
                    simp only []
                    rw [skipWs_append_stop hall2 (by
                      intro d hd
                      rw [List.cons_append, List.head?_cons] at hd
                      simp only [Option.some.injEq] at hd
                      rw [← hd]
                      exact hc0.1)]
                    rw [List.cons_append]
                    have hrv := hreconV (w3 ++ (',' :: (w4 ++ ('"' ::
                      (am1 ++ b2))))) (noNumHead_ws_cons w3 ',' _ hall3
                      (by rfl)) g2 (by
                      simp only [List.length_cons, List.length_append] at hg ⊢
                      omega)
                    rw [List.cons_append] at hrv
                    rw [show c0 :: (av1 ++ (w3 ++ (',' :: (w4 ++ ('"' ::
                      (am1 ++ b2)))))) = c0 :: av1 ++ (w3 ++ (',' :: (w4 ++
                      ('"' :: (am1 ++ b2))))) from by simp] at hrv
                    rw [show c0 :: (av1 ++ (w3 ++ (',' :: (w4 ++ ('"' ::
                      (am1 ++ b2)))))) = c0 :: av1 ++ (w3 ++ (',' :: (w4 ++
                      ('"' :: (am1 ++ b2))))) from by simp]
                    rw [hrv]
                    dsimp only
                    rw [skipWs_append_stop hall3 (by
                      intro d hd
                      simp only [List.head?_cons, Option.some.injEq] at hd
                      rw [← hd]
                      rfl)]
                    simp only []
                    rw [skipWs_append_stop hall4 (by
                      intro d hd
                      simp only [List.head?_cons, Option.some.injEq] at hd
                      rw [← hd]
                      rfl)]
                    have hrm := hreconM b2 hb2 g2 (by
                      simp only [List.length_cons, List.length_append] at hg ⊢
                      omega)
                    rw [List.cons_append] at hrm
                    rw [hrm]
                    simp only [Option.map_some']
                    rw [hvr.1]
                · rename_i r4 heq4
                  simp only [Option.some.injEq, Prod.mk.injEq] at h
                  refine ⟨'"' :: (key ++ ('"' :: (w1 ++ (':' :: (w2 ++
                    ((c0 :: av1) ++ (w3 ++ ['}']))))))), ?_, by simp, rfl,
                    ?_, ?_⟩
                  · rw [← h.2, hkey]
                    rw [show r1 = w1 ++ (':' :: r2) from by rw [hw1, heq2]]
                    rw [show r2 = w2 ++ ((c0 :: av1) ++ r3) from by
                      rw [hw2, hav]]
                    rw [show r3 = w3 ++ ('}' :: r4) from by rw [hw3, heq4]]
                    simp
                  · intro d hd
                    rw [show '"' :: (key ++ ('"' :: (w1 ++ (':' :: (w2 ++
                        ((c0 :: av1) ++ (w3 ++ ['}']))))))) =
                      ('"' :: (key ++ ('"' :: (w1 ++ (':' :: (w2 ++
                        ((c0 :: av1) ++ w3))))))) ++ ['}'] from by simp,
                      List.getLast?_concat] at hd
                    simp only [Option.some.injEq] at hd
                    rw [← hd]
                    rfl
                  · intro b2 hb2 g hg
                    obtain ⟨g2, rfl⟩ : ∃ g2, g = g2 + 1 := ⟨g - 1, by omega⟩
                    rw [List.cons_append, parseMembers_quote]
                    rw [show (key ++ ('"' :: (w1 ++ (':' :: (w2 ++
                      ((c0 :: av1) ++ (w3 ++ ['}']))))))) ++ b2 =
                      key ++ '"' :: (w1 ++ (':' :: (w2 ++ ((c0 :: av1) ++
                      (w3 ++ ('}' :: b2)))))) from by simp]
                    rw [scanStringBody_reparse _ key r1 heq]
                    dsimp only
                    rw [skipWs_append_stop hall1 (by
                      intro d hd
                      simp only [List.head?_cons, Option.some.injEq] at hd
                      rw [← hd]
                      rfl)]
                    simp only []
                    rw [skipWs_append_stop hall2 (by
                      intro d hd
                      rw [List.cons_append, List.head?_cons] at hd
                      simp only [Option.some.injEq] at hd
                      rw [← hd]
                      exact hc0.1)]
                    rw [List.cons_append]
                    have hrv := hreconV (w3 ++ ('}' :: b2))
                      (noNumHead_ws_cons w3 '}' _ hall3 (by rfl)) g2 (by
                      simp only [List.length_cons, List.length_append] at hg ⊢
                      omega)
                    rw [List.cons_append] at hrv
                    rw [hrv]
                    dsimp only
                    rw [skipWs_append_stop hall3 (by
                      intro d hd
                      simp only [List.head?_cons, Option.some.injEq] at hd
                      rw [← hd]
                      rfl)]
                    show some ([(key, v)], b2) = some (ms, b2)
                    rw [h.1]
                · exact absurd h (by simp)
            · exact absurd h (by simp)
        · exact absurd h (by simp)
      · intro s vs rtail h
        rw [parseElems_succ] at h
        split at h
        · exact absurd h (by simp)
        · rename_i p0 v r1 heq
          obtain ⟨av, hav, havne, havhead, havlast, hreconV⟩ := ihV _ _ _ heq
          obtain ⟨w1, hw1, hall1, _⟩ := skipWs_decomp r1
          split at h
          · rename_i r2 heq2
            simp only [Option.map_eq_some'] at h
            obtain ⟨⟨vs2, rm⟩, hm, hvr⟩ := h
            simp only [Prod.mk.injEq] at hvr
            obtain ⟨ae, hae, haene, haehead, haelast, hreconE⟩ := ihE _ _ _ hm
            obtain ⟨w2, hw2, hall2, _⟩ := skipWs_decomp r2
            obtain ⟨c1, ae1, rfl⟩ : ∃ c1 ae1, ae = c1 :: ae1 := by
              cases ae with
              | nil => exact absurd rfl haene
              | cons cx t => exact ⟨cx, t, rfl⟩
            have hc1 := haehead c1 rfl
            refine ⟨av ++ (w1 ++ (',' :: (w2 ++ (c1 :: ae1)))), ?_, by simp,
              ?_, ?_, ?_⟩
            · rw [← hvr.2, hav]
              rw [show r1 = w1 ++ (',' :: r2) from by rw [hw1, heq2]]
              rw [show r2 = w2 ++ ((c1 :: ae1) ++ rm) from by rw [hw2, hae]]
              simp
            · intro d hd
              rw [head?_append_ne _ _ havne] at hd
              exact havhead d hd
            · intro d hd
              rw [getLast?_append_ne _ _ (by simp),
                getLast?_append_ne _ _ (by simp)] at hd
              rw [show (',' :: (w2 ++ (c1 :: ae1))) = (',' :: w2) ++
                (c1 :: ae1) from by simp,
                getLast?_append_ne _ _ (by simp)] at hd
              exact haelast d hd
            · intro b2 hb2 g hg
              obtain ⟨g2, rfl⟩ : ∃ g2, g = g2 + 1 := ⟨g - 1, by omega⟩
              rw [parseElems_succ]
              rw [show (av ++ (w1 ++ (',' :: (w2 ++ (c1 :: ae1))))) ++ b2 =
                av ++ (w1 ++ (',' :: (w2 ++ (c1 :: (ae1 ++ b2))))) from
                by simp]
              have hrv := hreconV (w1 ++ (',' :: (w2 ++ (c1 :: (ae1 ++ b2)))))
                (noNumHead_ws_cons w1 ',' _ hall1 (by rfl)) g2 (by
                simp only [List.length_cons, List.length_append] at hg ⊢
                omega)
              rw [hrv]
              dsimp only
              rw [skipWs_append_stop hall1 (by
                intro d hd
                simp only [List.head?_cons, Option.some.injEq] at hd
                rw [← hd]
                rfl)]
              simp only []
              rw [skipWs_append_stop hall2 (by
                intro d hd
                simp only [List.head?_cons, Option.some.injEq] at hd
                rw [← hd]
                exact hc1.1)]
              have hre := hreconE b2 hb2 g2 (by
                simp only [List.length_cons, List.length_append] at hg ⊢
                omega)
              rw [List.cons_append] at hre
              rw [hre]
              simp only [Option.map_some']
              rw [hvr.1]
          · rename_i r2 heq2
            simp only [Option.some.injEq, Prod.mk.injEq] at h
            refine ⟨av ++ (w1 ++ [']']), ?_, by simp, ?_, ?_, ?_⟩
            · rw [← h.2, hav]
              rw [show r1 = w1 ++ (']' :: r2) from by rw [hw1, heq2]]
              simp
            · intro d hd
              rw [head?_append_ne _ _ havne] at hd
              exact havhead d hd
            · intro d hd
              rw [getLast?_append_ne _ _ (by simp),
                List.getLast?_concat] at hd
              simp only [Option.some.injEq] at hd
              rw [← hd]
              rfl
            · intro b2 hb2 g hg
              obtain ⟨g2, rfl⟩ : ∃ g2, g = g2 + 1 := ⟨g - 1, by omega⟩
              rw [parseElems_succ]
              rw [show (av ++ (w1 ++ [']'])) ++ b2 =
                av ++ (w1 ++ (']' :: b2)) from by simp]
              have hrv := hreconV (w1 ++ (']' :: b2))
                (noNumHead_ws_cons w1 ']' _ hall1 (by rfl)) g2 (by
                simp only [List.length_cons, List.length_append] at hg ⊢
                omega)
              rw [hrv]
              dsimp only
              rw [skipWs_append_stop hall1 (by
                intro d hd
                simp only [List.head?_cons, Option.some.injEq] at hd
                rw [← hd]
                rfl)]
              show some ([v], b2) = some (vs, b2)
              rw [h.1]
          · exact absurd h (by simp)

/-- A successful parse consumes a prefix that `json.loads` accepts on its
own: the standalone-reparse corollary of `parse_reconstruct`. -/
lemma parse_standalone (fuel : ℕ) (s : List Char) (v : Json)
    (rtail : List Char) (h : parseValue fuel s = some (v, rtail)) :
    ∃ a, s = a ++ rtail ∧ a ≠ [] ∧
      (∀ c, a.head? = some c → jsonWs c = false) ∧
      (∀ c, a.getLast? = some c → pyIsSpace c = false) ∧
      jsonLoads a = some v := by
  obtain ⟨a, hs, hne, hhead, hlast, hrecon⟩ :=
    (parse_reconstruct fuel).1 s v rtail h
  refine ⟨a, hs, hne, fun c hc => (hhead c hc).1, hlast, ?_⟩
  have hskip : skipWs a = a := by
    cases a with
    | nil => rfl
    | cons c t =>
        have hc := (hhead c rfl).1
        simp [skipWs, List.dropWhile_cons, hc]
  have hp : parseValue (2 * a.length + 2) (a ++ []) = some (v, []) :=
    hrecon [] noNumHead_nil _ (by omega)
  rw [List.append_nil] at hp
  show (match parseValue (2 * a.length + 2) (skipWs a) with
        | some (v2, rest) => if skipWs rest = [] then some v2 else none
        | none => none) = some v
  rw [hskip, hp]
  rfl

/-- Slicing `content[p : p + |a|]` out of `pre ++ a ++ suf` with
`|pre| = p` recovers `a` exactly (the code slices `content[start:i+1]`). -/
lemma sliceSpan_exact (pre a suf : List Char) (hne : a ≠ []) :
    sliceSpan (pre ++ a ++ suf) (pre.length, pre.length + a.length - 1) =
      a := by
  have h1 : 0 < a.length := List.length_pos.mpr hne
  show ((pre ++ a ++ suf).drop pre.length).take
      (pre.length + a.length - 1 + 1 - pre.length) = a
  rw [show pre.length + a.length - 1 + 1 - pre.length = a.length from by
    omega]
  rw [List.append_assoc, List.drop_left, List.take_left]

/-- Stripping trailing characters satisfying `p` from `x ++ junk`, where
all of `junk` satisfies `p` and the last character of `x` does not,
recovers `x`. -/
lemma dropWhile_reverse_stop {p : Char → Bool} (x junk : List Char)
    (hjunk : ∀ c ∈ junk, p c = true)
    (hlast : ∀ c, x.getLast? = some c → p c = false) :
    ((x ++ junk).reverse.dropWhile p).reverse = x := by
  rw [List.reverse_append]
  rw [dropWhile_append_stop (fun c hc => hjunk c (List.mem_reverse.mp hc))
    (by
      intro c hc
      rw [List.head?_reverse] at hc
      exact hlast c hc)]
  exact List.reverse_reverse x

/-- `str.strip()` on leading whitespace, a bracketed core whose last
character is not whitespace, and trailing whitespace returns exactly the
bracketed core. -/
lemma pyStrip_sandwich (w0 core junk : List Char)
    (hw0 : ∀ c ∈ w0, pyIsSpace c = true)
    (hjunk : ∀ c ∈ junk, pyIsSpace c = true)
    (hlast : ∀ c, core.getLast? = some c → pyIsSpace c = false)
    (hne : core ≠ []) :
    pyStrip (w0 ++ ('[' :: core) ++ junk) = '[' :: core := by
  have hfront : (w0 ++ ('[' :: core) ++ junk).dropWhile pyIsSpace
      = ('[' :: core) ++ junk := by
    rw [List.append_assoc]
    exact dropWhile_append_stop hw0 (by
      intro c hc
      simp only [List.cons_append, List.head?_cons, Option.some.injEq] at hc
      rw [← hc]
      rfl)
  show (((w0 ++ ('[' :: core) ++ junk).dropWhile
      pyIsSpace).reverse.dropWhile pyIsSpace).reverse = '[' :: core
  rw [hfront]
  exact dropWhile_reverse_stop ('[' :: core) junk hjunk (by
    intro c hc
    rw [show ('[' :: core : List Char) = ['['] ++ core from rfl,
      getLast?_append_ne _ _ hne] at hc
    exact hlast c hc)

/-- Depth-0 scanner/parser correspondence for array elements: over the
text consumed by a successful `parseElems` whose values are all objects,
the scanner (from a clean depth-0 state) emits one span per element, and
slicing each span out of any enclosing document and re-running
`json.loads` on it recovers exactly the parsed elements, in order. -/
lemma scan_elems0 (fuel : ℕ) :
    ∀ s vs rtail, parseElems fuel s = some (vs, rtail) →
      (∀ e ∈ vs, e.isObj = true) →
      ∃ a, s = a ++ rtail ∧ a ≠ [] ∧
        ∀ st : ScanSt, st.inString = false → st.escapeNext = false →
          st.depth = 0 →
            ∃ sps str2,
              scanRun st a = { st with
                start := str2
                pos := st.pos + a.length
                spans := st.spans ++ sps } ∧
              ∀ content pre suf, content = pre ++ (a ++ suf) →
                pre.length = st.pos →
                sps.filterMap (fun sp => jsonLoads (sliceSpan content sp))
                  = vs := by
  induction fuel with
  | zero =>
      intro s vs rtail h
      rw [parseElems_zero] at h
      exact absurd h (by simp)
  | succ f ih =>
      intro s vs rtail h hobj
      rw [parseElems_succ] at h
      split at h
      · exact absurd h (by simp)
      · rename_i p0 v r1 heq
        split at h
        · rename_i r2 heq2
          simp only [Option.map_eq_some'] at h
          obtain ⟨⟨vs', rm⟩, hm, hvr⟩ := h
          simp only [Prod.mk.injEq] at hvr
          have hvobj : v.isObj = true := hobj v (by
            rw [← hvr.1]
            exact List.mem_cons_self _ _)
          have hvs'obj : ∀ e ∈ vs', e.isObj = true := fun e he => hobj e (by
            rw [← hvr.1]
            exact List.mem_cons_of_mem _ he)
          obtain ⟨av, hav, havne, hscanV⟩ := scan_parse_obj0 f s v r1 heq hvobj
          obtain ⟨av2, hav2, _, _, _, hload⟩ := parse_standalone f s v r1 heq
          have heqa : av2 = av :=
            List.append_cancel_right (hav2.symm.trans hav)
          rw [heqa] at hload
          obtain ⟨w1, hw1, hall1, _⟩ := skipWs_decomp r1
          obtain ⟨w2, hw2, hall2, _⟩ := skipWs_decomp r2
          obtain ⟨a', ha', ha'ne, hIHrun⟩ := ih (skipWs r2) vs' rm hm hvs'obj
          refine ⟨av ++ (w1 ++ (',' :: (w2 ++ a'))), ?_, by simp, ?_⟩
          · rw [hav, ← hvr.2, show r1 = w1 ++ (',' :: r2) from by
              rw [hw1, heq2], show r2 = w2 ++ (a' ++ rm) from by
              rw [hw2, ha']]
            simp
          · intro st h1 h2 h3
            obtain ⟨i, e, d, s0, p, sp⟩ := st
            simp only at h1 h2 h3
            subst h1
            subst h2
            subst h3
            obtain ⟨sps', str2', hrun', hfm'⟩ := hIHrun
              ⟨false, false, 0, p,
                p + av.length + w1.length + 1 + w2.length,
                sp ++ [(p, p + av.length - 1)]⟩ rfl rfl rfl
            refine ⟨(p, p + av.length - 1) :: sps', str2', ?_, ?_⟩
            · rw [scanRun_append,
                hscanV ⟨false, false, 0, s0, p, sp⟩ rfl rfl rfl]
              dsimp only
              rw [scanRun_append, scanRun_ws w1 hall1 _ rfl rfl]
              dsimp only
              rw [scanRun_cons, scanStep_neutral _ _ rfl rfl (by decide)
                (by decide) (by decide)]
              dsimp only
              rw [scanRun_append, scanRun_ws w2 hall2 _ rfl rfl]
              dsimp only
              rw [hrun']
              dsimp only
              refine ScanSt.ext rfl rfl rfl rfl ?_ ?_
              · dsimp only
                simp only [List.length_append, List.length_cons]
                omega
              · dsimp only
                simp
            · intro content pre suf hcontent hpre
              simp only at hpre
              have hslice : sliceSpan content (p, p + av.length - 1) = av := by
                rw [hcontent, ← hpre]
                rw [show pre ++ ((av ++ (w1 ++ (',' :: (w2 ++ a')))) ++ suf)
                    = pre ++ av ++ ((w1 ++ (',' :: (w2 ++ a'))) ++ suf) from
                  by simp]
                exact sliceSpan_exact pre av _ havne
              have hf : (fun sp => jsonLoads (sliceSpan content sp))
                  (p, p + av.length - 1) = some v := by
                dsimp only
                rw [hslice]
                exact hload
              rw [show List.filterMap
                  (fun sp => jsonLoads (sliceSpan content sp))
                  ((p, p + av.length - 1) :: sps') = v :: List.filterMap
                  (fun sp => jsonLoads (sliceSpan content sp)) sps' from
                List.filterMap_cons_some hf, ← hvr.1]
              rw [hfm' content (pre ++ av ++ (w1 ++ [','] ++ w2)) suf
                (by rw [hcontent]; simp)
                (by
                  simp only [List.length_append, List.length_cons,
                    List.length_nil]
                  omega)]
        · rename_i r2 heq2
          simp only [Option.some.injEq, Prod.mk.injEq] at h
          have hvobj : v.isObj = true := hobj v (by
            rw [← h.1]
            exact List.mem_cons_self _ _)
          obtain ⟨av, hav, havne, hscanV⟩ := scan_parse_obj0 f s v r1 heq hvobj
          obtain ⟨av2, hav2, _, _, _, hload⟩ := parse_standalone f s v r1 heq
          have heqa : av2 = av :=
            List.append_cancel_right (hav2.symm.trans hav)
          rw [heqa] at hload
          obtain ⟨w1, hw1, hall1, _⟩ := skipWs_decomp r1
          refine ⟨av ++ (w1 ++ [']']), ?_, by simp, ?_⟩
          · rw [hav, ← h.2, show r1 = w1 ++ (']' :: r2) from by
              rw [hw1, heq2]]
            simp
          · intro st h1 h2 h3
            obtain ⟨i, e, d, s0, p, sp⟩ := st
            simp only at h1 h2 h3
            subst h1
            subst h2
            subst h3
            refine ⟨[(p, p + av.length - 1)], p, ?_, ?_⟩
            · rw [scanRun_append,
                hscanV ⟨false, false, 0, s0, p, sp⟩ rfl rfl rfl]
              dsimp only
              rw [scanRun_append, scanRun_ws w1 hall1 _ rfl rfl]
              dsimp only
              rw [scanRun_cons, scanRun_nil, scanStep_neutral _ _ rfl rfl
                (by decide) (by decide) (by decide)]
              dsimp only
              refine ScanSt.ext rfl rfl rfl rfl ?_ rfl
              dsimp only
              simp only [List.length_append, List.length_cons,
                List.length_nil]
              omega
            · intro content pre suf hcontent hpre
              simp only at hpre
              have hslice : sliceSpan content (p, p + av.length - 1) = av := by
                rw [hcontent, ← hpre]
                rw [show pre ++ ((av ++ (w1 ++ [']'])) ++ suf)
                    = pre ++ av ++ ((w1 ++ [']']) ++ suf) from by simp]
                exact sliceSpan_exact pre av _ havne
              have hf : (fun sp => jsonLoads (sliceSpan content sp))
                  (p, p + av.length - 1) = some v := by
                dsimp only
                rw [hslice]
                exact hload
              rw [show List.filterMap
                  (fun sp => jsonLoads (sliceSpan content sp))
                  [(p, p + av.length - 1)] = v :: List.filterMap
                  (fun sp => jsonLoads (sliceSpan content sp)) [] from
                List.filterMap_cons_some hf, List.filterMap_nil]
              exact h.1
        · exact absurd h (by simp)

/-- For an input that `json.loads` parses as a top-level array of
objects, the streaming scanner yields exactly the array's elements, in
order. -/
lemma streamJsonArray_arr (s : List Char) (elems : List Json)
    (h : jsonLoads s = some (Json.arr elems))
    (hobj : ∀ e ∈ elems, e.isObj = true) :
    streamJsonArray s = some elems := by
  have h' : ∃ rest, parseValue (2 * s.length + 2) (skipWs s) =
      some (Json.arr elems, rest) ∧ skipWs rest = [] := by
    cases hp : parseValue (2 * s.length + 2) (skipWs s) with
    | none =>
        exfalso
        have hj : jsonLoads s = none := by
          show (match parseValue (2 * s.length + 2) (skipWs s) with
                | some (v2, rest) =>
                    if skipWs rest = [] then some v2 else none
                | none => none) = none
          rw [hp]
        rw [hj] at h
        exact Option.noConfusion h
    | some pr =>
        obtain ⟨v2, rest⟩ := pr
        have hj : jsonLoads s = if skipWs rest = [] then some v2 else none := by
          show (match parseValue (2 * s.length + 2) (skipWs s) with
                | some (v2, rest) =>
                    if skipWs rest = [] then some v2 else none
                | none => none) = _
          rw [hp]
        rw [hj] at h
        split_ifs at h with hr
        · simp only [Option.some.injEq] at h
          exact ⟨rest, by rw [h], hr⟩
  obtain ⟨rest, hp, hrest⟩ := h'
  have hallrest : ∀ c ∈ rest, pyIsSpace c = true := fun c hc =>
    jsonWs_pyIsSpace c (List.dropWhile_eq_nil_iff.mp hrest c hc)
  obtain ⟨w0, hw0d, hallw0, _⟩ := skipWs_decomp s
  obtain ⟨F, hF⟩ : ∃ F, 2 * s.length + 2 = F + 1 := ⟨2 * s.length + 1, rfl⟩
  rw [hF, parseValue_succ] at hp
  split at hp
  · simp only [Option.map_eq_some'] at hp
    obtain ⟨⟨raw, r1⟩, _, hvr⟩ := hp
    simp only [Prod.mk.injEq] at hvr
    exact Json.noConfusion hvr.1
  · split at hp
    · simp only [Option.some.injEq, Prod.mk.injEq] at hp
      exact Json.noConfusion hp.1
    · simp only [Option.map_eq_some'] at hp
      obtain ⟨⟨ms, rm⟩, _, hvr⟩ := hp
      simp only [Prod.mk.injEq] at hvr
      exact Json.noConfusion hvr.1
  · rename_i rest0 heqs
    split at hp
    · rename_i r2 heq2
      simp only [Option.some.injEq, Prod.mk.injEq, Json.arr.injEq] at hp
      obtain ⟨helems, hr2⟩ := hp
      obtain ⟨w1, hw1, hallw1, _⟩ := skipWs_decomp rest0
      have hstrip : pyStrip s = '[' :: (w1 ++ [']']) := by
        rw [hw0d, heqs, show rest0 = w1 ++ (']' :: r2) from by
          rw [hw1, heq2]]
        rw [show w0 ++ ('[' :: (w1 ++ (']' :: r2)))
            = w0 ++ ('[' :: (w1 ++ [']'])) ++ r2 from by simp]
        refine pyStrip_sandwich w0 (w1 ++ [']']) r2
          (fun c hc => jsonWs_pyIsSpace c (hallw0 c hc))
          (fun c hc => hallrest c (hr2 ▸ hc)) ?_ (by simp)
        intro c hc
        rw [List.getLast?_concat] at hc
        simp only [Option.some.injEq] at hc
        rw [← hc]
        rfl
      have hstream : streamJsonArray s =
          some (((scanRun initScanSt (w1 ++ [']'])).spans).filterMap
            (fun sp => jsonLoads (sliceSpan (w1 ++ [']']) sp))) := by
        show (match pyStrip s with
              | '[' :: content =>
                  some ((scanRun initScanSt content).spans.filterMap
                    (fun sp => jsonLoads (sliceSpan content sp)))
              | _ => none) = _
        rw [hstrip]
        rfl
      rw [hstream]
      rw [scanRun_neutral (w1 ++ [']']) (by
          intro c hc
          rcases List.mem_append.mp hc with hc | hc
          · exact jsonWs_neutral c (hallw1 c hc)
          · simp only [List.mem_singleton] at hc
            rw [hc]
            exact ⟨by decide, by decide, by decide⟩)
        initScanSt rfl rfl]
      dsimp only [initScanSt]
      simp only [List.filterMap_nil]
      rw [← helems]
    · rename_i hne
      simp only [Option.map_eq_some'] at hp
      obtain ⟨⟨vs, rm⟩, hm, hvr⟩ := hp
      simp only [Prod.mk.injEq, Json.arr.injEq] at hvr
      obtain ⟨w1, hw1, hallw1, _⟩ := skipWs_decomp rest0
      obtain ⟨ae, hae, haene, hrun⟩ := scan_elems0 F _ vs rm hm
        (fun e he => hobj e (hvr.1 ▸ he))
      obtain ⟨ae2, hae2, _, _, haelast, _⟩ :=
        (parse_reconstruct F).2.2 _ vs rm hm
      have heqae : ae2 = ae :=
        List.append_cancel_right (hae2.symm.trans hae)
      rw [heqae] at haelast
      have hstrip : pyStrip s = '[' :: (w1 ++ ae) := by
        rw [hw0d, heqs, show rest0 = w1 ++ (ae ++ rm) from by
          rw [hw1, hae]]
        rw [show w0 ++ ('[' :: (w1 ++ (ae ++ rm)))
            = w0 ++ ('[' :: (w1 ++ ae)) ++ rm from by simp]
        refine pyStrip_sandwich w0 (w1 ++ ae) rm
          (fun c hc => jsonWs_pyIsSpace c (hallw0 c hc))
          (fun c hc => hallrest c (hvr.2 ▸ hc)) ?_ ?_
        · intro c hc
          rw [getLast?_append_ne w1 ae haene] at hc
          exact haelast c hc
        · intro hcon
          exact haene (List.append_eq_nil.mp hcon).2
      have hstream : streamJsonArray s =
          some (((scanRun initScanSt (w1 ++ ae)).spans).filterMap
            (fun sp => jsonLoads (sliceSpan (w1 ++ ae) sp))) := by
        show (match pyStrip s with
              | '[' :: content =>
                  some ((scanRun initScanSt content).spans.filterMap
                    (fun sp => jsonLoads (sliceSpan content sp)))
              | _ => none) = _
        rw [hstrip]
        rfl
      rw [hstream]
      obtain ⟨sps, str2, hrun2, hfm⟩ :=
        hrun ⟨false, false, 0, 0, 0 + w1.length, []⟩ rfl rfl rfl
      rw [scanRun_append, scanRun_ws w1 hallw1 initScanSt rfl rfl]
      dsimp only [initScanSt]
      rw [hrun2]
      dsimp only
      rw [List.nil_append]
      rw [hfm (w1 ++ ae) w1 [] (by simp) (by simp)]
      rw [hvr.1]
  · simp only [Option.some.injEq, Prod.mk.injEq] at hp
    exact Json.noConfusion hp.1
  · simp only [Option.some.injEq, Prod.mk.injEq] at hp
    exact Json.noConfusion hp.1
  · simp only [Option.some.injEq, Prod.mk.injEq] at hp
    exact Json.noConfusion hp.1
  · split_ifs at hp with hnum
    simp only [Option.some.injEq, Prod.mk.injEq] at hp
    exact Json.noConfusion hp.1
  · exact absurd hp (by simp)

/-- C4: for every input string that is a syntactically valid JSON document
consisting of a top-level array whose elements are all JSON objects, the
character-by-character streaming scanner `stream_json_array` yields
exactly the same sequence of objects, in the same order, as parsing the
whole document with the standard JSON parser and iterating over the
array's elements. -/
theorem stream_json_array_refines (s : List Char) (elems : List Json)
    (h : jsonLoads s = some (Json.arr elems))
    (hobj : ∀ e ∈ elems, e.isObj = true) :
    streamJsonArray s = some elems :=
  streamJsonArray_arr s elems h hobj

/-- A small concrete document for exercising the streaming scanner:
`" [ {\x22a\x22: 1} , {} ] "`. -/
def c4doc : List Char :=
  [' ', '[', ' ', '{', '"', 'a', '"', ':', ' ', '1', '}', ' ', ',', ' ',
   '{', '}', ' ', ']', ' ']

theorem stream_json_array_refines_witness :
    streamJsonArray c4doc =
      some [Json.obj [(['a'], Json.num ['1'])], Json.obj []] :=
  stream_json_array_refines c4doc
    [Json.obj [(['a'], Json.num ['1'])], Json.obj []]
    (by rfl)
    (by
      intro e he
      rcases List.mem_cons.mp he with rfl | he
      · rfl
      · rcases List.mem_cons.mp he with rfl | he
        · rfl
        · exact absurd he (List.not_mem_nil e))

/-! ### `chunked_import` and `process_chunk` (`app/utils/optimized_import.py`)

The conversation repository's `create` and the dict-to-`Conversation`
parse (`parse_single_conversation(conv_data, user_id)`, which catches its
own exceptions and returns `None`) are function parameters.  The
wall-clock fields of the results dict (`start_time`, `end_time`,
`duration_seconds`) and the `time.sleep` throttle are not modeled; the
progress callback is modeled as the recorded list of arguments it is
invoked with. -/

/-- The counters of the `results` dict of `chunked_import`. -/
structure ImportResults where
  total_processed : ℕ
  success : ℕ
  error : ℕ
  conversation_ids : List String
deriving DecidableEq

/-- The freshly initialised `results` dict. -/
def initResults : ImportResults := ⟨0, 0, 0, []⟩

/-- The body of the `for conv_data in chunk` loop of `process_chunk`: an
unparsable or message-less conversation counts an error; otherwise the
repository `create` either yields an id (success, id recorded) or not
(error); `total_processed` is bumped in every branch. -/
def processOne (parse : Json → Option Conversation)
    (create : Conversation → Option String)
    (res : ImportResults) (conv_data : Json) : ImportResults :=
  match parse conv_data with
  | none =>
      { res with
          error := res.error + 1
          total_processed := res.total_processed + 1 }
  | some conversation =>
      if conversation.messages.isEmpty then
        { res with
            error := res.error + 1
            total_processed := res.total_processed + 1 }
      else
        match create conversation with
        | some cid =>
            { res with
                success := res.success + 1
                conversation_ids := res.conversation_ids ++ [cid]
                total_processed := res.total_processed + 1 }
        | none =>
            { res with
                error := res.error + 1
                total_processed := res.total_processed + 1 }

/-- `process_chunk(chunk, user_id, conversation_repo, results)`. -/
def processChunk (parse : Json → Option Conversation)
    (create : Conversation → Option String)
    (chunk : List Json) (res : ImportResults) : ImportResults :=
  chunk.foldl (processOne parse create) res

/-- The `for conv_data in conversations_stream` loop of `chunked_import`:
objects accumulate in `chunk`; once `len(chunk) >= chunk_size` the chunk
is processed, `imported_count += chunk_size`, and the callback is invoked
with `imported_count`.  Returns the leftover chunk, `imported_count`, the
results, and the callback invocations. -/
def chunkedImportGo (parse : Json → Option Conversation)
    (create : Conversation → Option String) (k : ℕ) :
    List Json → List Json → ℕ → ImportResults → List ℕ →
      List Json × ℕ × ImportResults × List ℕ
  | [], chunk, imported, res, cbs => (chunk, imported, res, cbs)
  | obj :: rest, chunk, imported, res, cbs =>
      let chunk2 := chunk ++ [obj]
      if k ≤ chunk2.length then
        chunkedImportGo parse create k rest [] (imported + k)
          (processChunk parse create chunk2 res) (cbs ++ [imported + k])
      else
        chunkedImportGo parse create k rest chunk2 imported res cbs

/-- `chunked_import(file_content, user_id, chunk_size, callback)`: stream
the array (a `ValueError` from `stream_json_array` is caught and turned
into the error-dict with `error = 1`), run the chunked loop, then process
a non-empty final chunk and report it to the callback. -/
def chunkedImport (parse : Json → Option Conversation)
    (create : Conversation → Option String) (k : ℕ) (s : List Char) :
    ImportResults × List ℕ :=
  match streamJsonArray s with
  | none => (⟨0, 0, 1, []⟩, [])
  | some objs =>
      let r := chunkedImportGo parse create k objs [] 0 initResults []
      if r.1.isEmpty then (r.2.2.1, r.2.2.2)
      else (processChunk parse create r.1 r.2.2.1,
        r.2.2.2 ++ [r.2.1 + r.1.length])

lemma processOne_count (parse : Json → Option Conversation)
    (create : Conversation → Option String)
    (res : ImportResults) (o : Json) :
    (processOne parse create res o).success +
      (processOne parse create res o).error =
      res.success + res.error + 1 := by
  unfold processOne
  split
  · show res.success + (res.error + 1) = res.success + res.error + 1
    omega
  · split_ifs
    · show res.success + (res.error + 1) = res.success + res.error + 1
      omega
    · split
      · show res.success + 1 + res.error = res.success + res.error + 1
        omega
      · show res.success + (res.error + 1) = res.success + res.error + 1
        omega

lemma processChunk_count (parse : Json → Option Conversation)
    (create : Conversation → Option String) :
    ∀ chunk res, (processChunk parse create chunk res).success +
      (processChunk parse create chunk res).error =
      res.success + res.error + chunk.length := by
  intro chunk
  induction chunk with
  | nil =>
      intro res
      simp [processChunk]
  | cons o t ih =>
      intro res
      rw [show processChunk parse create (o :: t) res
          = processChunk parse create t (processOne parse create res o)
        from rfl]
      rw [ih (processOne parse create res o), processOne_count]
      simp only [List.length_cons]
      omega

lemma chunkedImportGo_count (parse : Json → Option Conversation)
    (create : Conversation → Option String) (k : ℕ) :
    ∀ objs chunk imported res cbs,
      (chunkedImportGo parse create k objs chunk imported res
          cbs).2.2.1.success +
        (chunkedImportGo parse create k objs chunk imported res
          cbs).2.2.1.error +
        (chunkedImportGo parse create k objs chunk imported res
          cbs).1.length =
      res.success + res.error + chunk.length + objs.length := by
  intro objs
  induction objs with
  | nil =>
      intro chunk imported res cbs
      simp [chunkedImportGo]
  | cons o rest ih =>
      intro chunk imported res cbs
      rw [show chunkedImportGo parse create k (o :: rest) chunk imported
            res cbs
          = if k ≤ (chunk ++ [o]).length then
              chunkedImportGo parse create k rest [] (imported + k)
                (processChunk parse create (chunk ++ [o]) res)
                (cbs ++ [imported + k])
            else
              chunkedImportGo parse create k rest (chunk ++ [o]) imported
                res cbs
        from rfl]
      split_ifs with hcond
      · rw [ih]
        rw [processChunk_count]
        simp only [List.length_append, List.length_cons, List.length_nil]
        omega
      · rw [ih]
        simp only [List.length_append, List.length_cons, List.length_nil]
        omega

lemma chunkedImportGo_batches (parse : Json → Option Conversation)
    (create : Conversation → Option String) (k : ℕ) (hk : 0 < k) :
    ∀ objs chunk imported res cbs, chunk.length < k →
      (chunkedImportGo parse create k objs chunk imported res
          cbs).1.length < k ∧
      ∃ b, (chunkedImportGo parse create k objs chunk imported res
            cbs).2.2.2.length = cbs.length + b ∧
        chunk.length + objs.length =
          b * k + (chunkedImportGo parse create k objs chunk imported res
            cbs).1.length := by
  intro objs
  induction objs with
  | nil =>
      intro chunk imported res cbs hlt
      refine ⟨by simpa [chunkedImportGo] using hlt, 0, by
        simp [chunkedImportGo], by simp [chunkedImportGo]⟩
  | cons o rest ih =>
      intro chunk imported res cbs hlt
      rw [show chunkedImportGo parse create k (o :: rest) chunk imported
            res cbs
          = if k ≤ (chunk ++ [o]).length then
              chunkedImportGo parse create k rest [] (imported + k)
                (processChunk parse create (chunk ++ [o]) res)
                (cbs ++ [imported + k])
            else
              chunkedImportGo parse create k rest (chunk ++ [o]) imported
                res cbs
        from rfl]
      split_ifs with hcond
      · have hlen : chunk.length + 1 = k := by
          simp only [List.length_append, List.length_cons, List.length_nil]
            at hcond
          omega
        obtain ⟨h1, b, hb1, hb2⟩ := ih [] (imported + k)
          (processChunk parse create (chunk ++ [o]) res)
          (cbs ++ [imported + k]) (by simpa using hk)
        refine ⟨h1, b + 1, ?_, ?_⟩
        · rw [hb1]
          simp only [List.length_append, List.length_cons, List.length_nil]
          omega
        · simp only [List.length_nil, List.length_cons, Nat.zero_add] at hb2
          rw [Nat.succ_mul]
          simp only [List.length_cons]
          omega
      · have hlt2 : (chunk ++ [o]).length < k := by
          simp only [List.length_append, List.length_cons, List.length_nil]
            at hcond ⊢
          omega
        obtain ⟨h1, b, hb1, hb2⟩ := ih (chunk ++ [o]) imported res cbs hlt2
        refine ⟨h1, b, hb1, ?_⟩
        simp only [List.length_append, List.length_cons, List.length_nil]
          at hb2 ⊢
        omega

lemma chunkedImport_count (parse : Json → Option Conversation)
    (create : Conversation → Option String) (k : ℕ) (s : List Char)
    (objs : List Json) (h : streamJsonArray s = some objs) :
    (chunkedImport parse create k s).1.success +
      (chunkedImport parse create k s).1.error = objs.length := by
  have hcount := chunkedImportGo_count parse create k objs [] 0
    initResults []
  simp only [List.length_nil] at hcount
  rw [show initResults.success = 0 from rfl,
    show initResults.error = 0 from rfl] at hcount
  rw [show chunkedImport parse create k s
      = (match streamJsonArray s with
        | none => (⟨0, 0, 1, []⟩, [])
        | some objs =>
            let r := chunkedImportGo parse create k objs [] 0 initResults []
            if r.1.isEmpty then (r.2.2.1, r.2.2.2)
            else (processChunk parse create r.1 r.2.2.1,
              r.2.2.2 ++ [r.2.1 + r.1.length])) from rfl]
  rw [h]
  dsimp only
  split_ifs with hempty
  · have h0 : (chunkedImportGo parse create k objs [] 0 initResults
        []).1.length = 0 := by
      rw [List.isEmpty_iff] at hempty
      rw [hempty]
      rfl
    dsimp only
    omega
  · dsimp only
    rw [processChunk_count]
    omega

lemma processOne_total (parse : Json → Option Conversation)
    (create : Conversation → Option String)
    (res : ImportResults) (o : Json) :
    (processOne parse create res o).total_processed =
      res.total_processed + 1 := by
  unfold processOne
  split
  · rfl
  · split_ifs
    · rfl
    · split
      · rfl
      · rfl

lemma processChunk_total (parse : Json → Option Conversation)
    (create : Conversation → Option String) :
    ∀ chunk res, (processChunk parse create chunk res).total_processed =
      res.total_processed + chunk.length := by
  intro chunk
  induction chunk with
  | nil =>
      intro res
      simp [processChunk]
  | cons o t ih =>
      intro res
      rw [show processChunk parse create (o :: t) res
          = processChunk parse create t (processOne parse create res o)
        from rfl]
      rw [ih (processOne parse create res o), processOne_total]
      simp only [List.length_cons]
      omega

lemma chunkedImportGo_total (parse : Json → Option Conversation)
    (create : Conversation → Option String) (k : ℕ) :
    ∀ objs chunk imported res cbs,
      (chunkedImportGo parse create k objs chunk imported res
          cbs).2.2.1.total_processed +
        (chunkedImportGo parse create k objs chunk imported res
          cbs).1.length =
      res.total_processed + chunk.length + objs.length := by
  intro objs
  induction objs with
  | nil =>
      intro chunk imported res cbs
      simp [chunkedImportGo]
  | cons o rest ih =>
      intro chunk imported res cbs
      rw [show chunkedImportGo parse create k (o :: rest) chunk imported
            res cbs
          = if k ≤ (chunk ++ [o]).length then
              chunkedImportGo parse create k rest [] (imported + k)
                (processChunk parse create (chunk ++ [o]) res)
                (cbs ++ [imported + k])
            else
              chunkedImportGo parse create k rest (chunk ++ [o]) imported
                res cbs
        from rfl]
      split_ifs with hcond
      · rw [ih]
        rw [processChunk_total]
        simp only [List.length_append, List.length_cons, List.length_nil]
        omega
      · rw [ih]
        simp only [List.length_append, List.length_cons, List.length_nil]
        omega

lemma chunkedImport_total (parse : Json → Option Conversation)
    (create : Conversation → Option String) (k : ℕ) (s : List Char)
    (objs : List Json) (h : streamJsonArray s = some objs) :
    (chunkedImport parse create k s).1.total_processed = objs.length := by
  have hcount := chunkedImportGo_total parse create k objs [] 0
    initResults []
  simp only [List.length_nil] at hcount
  rw [show initResults.total_processed = 0 from rfl] at hcount
  rw [show chunkedImport parse create k s
      = (match streamJsonArray s with
        | none => (⟨0, 0, 1, []⟩, [])
        | some objs =>
            let r := chunkedImportGo parse create k objs [] 0 initResults []
            if r.1.isEmpty then (r.2.2.1, r.2.2.2)
            else (processChunk parse create r.1 r.2.2.1,
              r.2.2.2 ++ [r.2.1 + r.1.length])) from rfl]
  rw [h]
  dsimp only
  split_ifs with hempty
  · have h0 : (chunkedImportGo parse create k objs [] 0 initResults
        []).1.length = 0 := by
      rw [List.isEmpty_iff] at hempty
      rw [hempty]
      rfl
    dsimp only
    omega
  · dsimp only
    rw [processChunk_total]
    omega

lemma parseValue_emptyObj (f : ℕ) (X : List Char) :
    parseValue (f + 1) ('{' :: '}' :: X) = some (Json.obj [], X) := by
  rw [parseValue_lbrace]
  rw [show skipWs ('}' :: X) = '}' :: X from dropWhile_head_stop (by
    intro c hc
    simp only [List.head?_cons, Option.some.injEq] at hc
    rw [← hc]
    rfl)]
  rfl

/-- The text of `n` further `,{}` elements followed by the closing
bracket. -/
def objsTail : ℕ → List Char
  | 0 => [']']
  | n + 1 => ',' :: '{' :: '}' :: objsTail n

lemma objsTail_length (n : ℕ) : (objsTail n).length = 3 * n + 1 := by
  induction n with
  | zero => rfl
  | succ m ih =>
      show (objsTail m).length + 1 + 1 + 1 = 3 * (m + 1) + 1
      rw [ih]
      ring

lemma parseElems_objsTail (n : ℕ) :
    ∀ f, 2 * n + 2 ≤ f →
      parseElems f ('{' :: '}' :: objsTail n) =
        some (List.replicate (n + 1) (Json.obj []), []) := by
  induction n with
  | zero =>
      intro f hf
      obtain ⟨g, rfl⟩ : ∃ g, f = g + 2 := ⟨f - 2, by omega⟩
      rw [parseElems_succ, parseValue_emptyObj g (objsTail 0)]
      rfl
  | succ n ih =>
      intro f hf
      obtain ⟨g, rfl⟩ : ∃ g, f = g + 2 := ⟨f - 2, by omega⟩
      rw [parseElems_succ, parseValue_emptyObj g (objsTail (n + 1))]
      simp only []
      rw [show objsTail (n + 1) = ',' :: '{' :: '}' :: objsTail n from rfl]
      rw [show skipWs (',' :: '{' :: '}' :: objsTail n)
          = ',' :: '{' :: '}' :: objsTail n from dropWhile_head_stop (by
        intro c hc
        simp only [List.head?_cons, Option.some.injEq] at hc
        rw [← hc]
        rfl)]
      simp only []
      rw [show skipWs ('{' :: '}' :: objsTail n)
          = '{' :: '}' :: objsTail n from dropWhile_head_stop (by
        intro c hc
        simp only [List.head?_cons, Option.some.injEq] at hc
        rw [← hc]
        rfl)]
      rw [ih (g + 1) (by omega)]
      rfl

/-- A well-formed JSON array of exactly 1000 empty objects. -/
def c7doc : List Char := '[' :: '{' :: '}' :: objsTail 999

lemma jsonLoads_eq (s : List Char) :
    jsonLoads s =
      match parseValue (2 * s.length + 2) (skipWs s) with
      | some (v2, rest) => if skipWs rest = [] then some v2 else none
      | none => none := rfl

lemma jsonLoads_c7doc :
    jsonLoads c7doc = some (Json.arr
      (List.replicate 1000 (Json.obj []))) := by
  have hlen : c7doc.length = 3001 := by
    show (objsTail 999).length + 1 + 1 + 1 = 3001
    rw [objsTail_length]
  rw [jsonLoads_eq, hlen]
  rw [show skipWs c7doc = c7doc from dropWhile_head_stop (by
    intro c hc
    simp only [c7doc, List.head?_cons, Option.some.injEq] at hc
    rw [← hc]
    rfl)]
  rw [show (2 * 3001 + 2 : ℕ) = 6003 + 1 from rfl]
  rw [show c7doc = '[' :: '{' :: '}' :: objsTail 999 from rfl,
    parseValue_lbrack]
  rw [show skipWs ('{' :: '}' :: objsTail 999)
      = '{' :: '}' :: objsTail 999 from dropWhile_head_stop (by
    intro c hc
    simp only [List.head?_cons, Option.some.injEq] at hc
    rw [← hc]
    rfl)]
  rw [show (match '{' :: '}' :: objsTail 999 with
      | ']' :: r2 => some (Json.arr [], r2)
      | r1 => (parseElems 6003 r1).map (fun p => (Json.arr p.1, p.2)))
    = (parseElems 6003 ('{' :: '}' :: objsTail 999)).map
      (fun p => (Json.arr p.1, p.2)) from rfl]
  rw [parseElems_objsTail 999 6003 (by omega)]
  rfl

/-- C7: for a well-formed top-level JSON array of exactly 1000
conversation objects and `chunk_size = 20`, `chunked_import` invokes the
progress callback exactly 50 times and the final result satisfies
`success + error = 1000` (for every repository `create` and every
per-conversation parse outcome). -/
theorem chunked_import_thousand (parse : Json → Option Conversation)
    (create : Conversation → Option String) (s : List Char)
    (objs : List Json) (hs : jsonLoads s = some (Json.arr objs))
    (hobj : ∀ e ∈ objs, e.isObj = true) (hlen : objs.length = 1000) :
    (chunkedImport parse create 20 s).2.length = 50 ∧
    (chunkedImport parse create 20 s).1.success +
      (chunkedImport parse create 20 s).1.error = 1000 := by
  have hstream : streamJsonArray s = some objs :=
    streamJsonArray_arr s objs hs hobj
  have hcount := chunkedImport_count parse create 20 s objs hstream
  refine ⟨?_, by rw [hcount, hlen]⟩
  obtain ⟨hlt, b, hb1, hb2⟩ := chunkedImportGo_batches parse create 20
    (by omega) objs [] 0 initResults [] (by simp)
  simp only [List.length_nil, Nat.zero_add] at hb1 hb2
  rw [hlen] at hb2
  have hb50 : b = 50 ∧ (chunkedImportGo parse create 20 objs [] 0
      initResults []).1.length = 0 := by omega
  rw [show chunkedImport parse create 20 s
      = (match streamJsonArray s with
        | none => (⟨0, 0, 1, []⟩, [])
        | some objs =>
            let r := chunkedImportGo parse create 20 objs [] 0 initResults []
            if r.1.isEmpty then (r.2.2.1, r.2.2.2)
            else (processChunk parse create r.1 r.2.2.1,
              r.2.2.2 ++ [r.2.1 + r.1.length])) from rfl]
  rw [hstream]
  dsimp only
  rw [if_pos (by
    rw [List.isEmpty_iff]
    exact List.length_eq_zero.mp hb50.2)]
  dsimp only
  rw [hb1, hb50.1]

theorem chunked_import_thousand_witness :
    (chunkedImport (fun _ => none) (fun _ => none) 20 c7doc).2.length
        = 50 ∧
    (chunkedImport (fun _ => none) (fun _ => none) 20 c7doc).1.success +
      (chunkedImport (fun _ => none) (fun _ => none) 20 c7doc).1.error
        = 1000 :=
  chunked_import_thousand (fun _ => none) (fun _ => none) c7doc
    (List.replicate 1000 (Json.obj []))
    jsonLoads_c7doc
    (by
      intro e he
      rw [List.eq_of_mem_replicate he]
      rfl)
    (List.length_replicate 1000 _)

/-- The malformed document `[{:},{}]`: its first top-level brace span
`{:}` is not valid JSON, its second `{}` is. -/
def c10doc : List Char := ['[', '{', ':', '}', ',', '{', '}', ']']

/-- `c10doc` minus the stripped opening bracket: what the scanner walks. -/
def c10content : List Char := ['{', ':', '}', ',', '{', '}', ']']

/-- C10: a top-level brace-delimited span that fails to parse as JSON is
silently skipped by the scanner and contributes to none of the result's
`total_processed`, `success` or `error` counters: in general
`total_processed` and `success + error` both equal the number of spans
that parsed (the objects yielded), and on `c10doc` the scanner delimits
2 spans but yields only the 1 well-formed object, so every import run
over it ends with `total_processed = 1` and `success + error = 1`, both
strictly less than the 2 array elements. -/
theorem chunked_import_malformed_skipped :
    (∀ (parse : Json → Option Conversation)
        (create : Conversation → Option String) (k : ℕ) (s : List Char)
        (objs : List Json), streamJsonArray s = some objs →
      (chunkedImport parse create k s).1.total_processed = objs.length ∧
      (chunkedImport parse create k s).1.success +
        (chunkedImport parse create k s).1.error = objs.length) ∧
    (scanRun initScanSt c10content).spans.length = 2 ∧
    streamJsonArray c10doc = some [Json.obj []] ∧
    ∀ (parse : Json → Option Conversation)
      (create : Conversation → Option String) (k : ℕ),
      (chunkedImport parse create k c10doc).1.total_processed = 1 ∧
      (chunkedImport parse create k c10doc).1.success +
        (chunkedImport parse create k c10doc).1.error = 1 := by
  refine ⟨fun parse create k s objs h =>
    ⟨chunkedImport_total parse create k s objs h,
      chunkedImport_count parse create k s objs h⟩, by rfl, by rfl, ?_⟩
  intro parse create k
  exact ⟨chunkedImport_total parse create k c10doc [Json.obj []] (by rfl),
    chunkedImport_count parse create k c10doc [Json.obj []] (by rfl)⟩

theorem chunked_import_malformed_skipped_witness :
    (chunkedImport (fun _ => none) (fun _ => none) 10
        c10doc).1.total_processed = 1 ∧
    (chunkedImport (fun _ => none) (fun _ => none) 10 c10doc).1.success +
      (chunkedImport (fun _ => none) (fun _ => none) 10 c10doc).1.error
        = 1 :=
  chunked_import_malformed_skipped.1 (fun _ => none) (fun _ => none) 10
    c10doc [Json.obj []] (by rfl)
